import Mathlib

/-!
Verification development for the FootwearMaker geometry core.

Two components are embedded shallowly over exact rational arithmetic:

* the free-form-deformation (FFD) control-lattice engine of
  src/utils/FFD.ts, and
* the seam-repair/smoothing pipeline (smoothSeam and its helpers).

Conventions of the embedding:

* JavaScript double arithmetic is modelled by the field of rationals.
  Statements that the spec phrases as holding `within floating tolerance`
  are proved over the rationals, either exactly or with the explicit
  epsilon bounds the source itself uses.
* Division by zero in the rationals yields 0 (the Lean convention); in
  JavaScript it yields Infinity or NaN.  Every proved theorem either
  avoids such points via its hypotheses, or (in counterexamples) the
  violated equation fails in both semantics.
* Math.sqrt has no exact rational counterpart.  All pipeline functions
  take an explicit parameter `sq : Q -> Q` standing for the (floating)
  square-root routine; universally quantified theorems hold for every
  such interpretation, hence in particular for the real one.  Concrete
  evaluations instantiate `sq` with a fixed-point approximation defined
  below.
* Mutable JavaScript arrays, Maps and Sets are modelled by immutable
  lists and insertion-ordered association lists, with state threaded
  explicitly.
-/

-- Batteries marks the rational field operations irreducible, which blocks
-- kernel evaluation of concrete states by the decide tactic; restore the
-- default reducibility locally for this development.
attribute [local semireducible] Rat.mul Rat.add Rat.sub Rat.inv

namespace Footwear

/-- A 3-component vector of rationals, mirroring THREE.Vector3. -/
@[ext]
structure Vec3 where
  x : ℚ
  y : ℚ
  z : ℚ
  deriving DecidableEq, Repr

namespace Vec3

def zero : Vec3 := ⟨0, 0, 0⟩

def add (a b : Vec3) : Vec3 := ⟨a.x + b.x, a.y + b.y, a.z + b.z⟩

def sub (a b : Vec3) : Vec3 := ⟨a.x - b.x, a.y - b.y, a.z - b.z⟩

def smul (c : ℚ) (a : Vec3) : Vec3 := ⟨c * a.x, c * a.y, c * a.z⟩

/-- THREE.Vector3.divideScalar: multiplies by the reciprocal. -/
def divScalar (a : Vec3) (c : ℚ) : Vec3 := ⟨a.x / c, a.y / c, a.z / c⟩

def dot (a b : Vec3) : ℚ := a.x * b.x + a.y * b.y + a.z * b.z

def cross (a b : Vec3) : Vec3 :=
  ⟨a.y * b.z - a.z * b.y, a.z * b.x - a.x * b.z, a.x * b.y - a.y * b.x⟩

def distSq (a b : Vec3) : ℚ :=
  (a.x - b.x) ^ 2 + (a.y - b.y) ^ 2 + (a.z - b.z) ^ 2

/-- Componentwise minimum, used for bounding boxes. -/
def vmin (a b : Vec3) : Vec3 := ⟨min a.x b.x, min a.y b.y, min a.z b.z⟩

/-- Componentwise maximum, used for bounding boxes. -/
def vmax (a b : Vec3) : Vec3 := ⟨max a.x b.x, max a.y b.y, max a.z b.z⟩

end Vec3

/-- A 4x4 rational matrix, mirroring THREE.Matrix4.  Field `mij` is the
entry in row `i`, column `j` (THREE stores the same entries in
column-major element order). -/
@[ext]
structure Mat4 where
  m11 : ℚ
  m12 : ℚ
  m13 : ℚ
  m14 : ℚ
  m21 : ℚ
  m22 : ℚ
  m23 : ℚ
  m24 : ℚ
  m31 : ℚ
  m32 : ℚ
  m33 : ℚ
  m34 : ℚ
  m41 : ℚ
  m42 : ℚ
  m43 : ℚ
  m44 : ℚ
  deriving DecidableEq, Repr

namespace Mat4

/-- The identity matrix: what the THREE.Matrix4 constructor produces. -/
def idM : Mat4 := ⟨1,0,0,0, 0,1,0,0, 0,0,1,0, 0,0,0,1⟩

/-- The all-zero matrix: what THREE.Matrix4.invert leaves behind when the
determinant is zero. -/
def zeroM : Mat4 := ⟨0,0,0,0, 0,0,0,0, 0,0,0,0, 0,0,0,0⟩

/-- Determinant of a 3x3 matrix given row by row. -/
def det3 (a b c d e f g h i : ℚ) : ℚ :=
  a * (e * i - f * h) - b * (d * i - f * g) + c * (d * h - e * g)

/-- Determinant of a 4x4 matrix (Laplace expansion along the first row),
the quantity THREE.Matrix4.invert tests against zero. -/
def det (M : Mat4) : ℚ :=
    M.m11 * det3 M.m22 M.m23 M.m24 M.m32 M.m33 M.m34 M.m42 M.m43 M.m44
  - M.m12 * det3 M.m21 M.m23 M.m24 M.m31 M.m33 M.m34 M.m41 M.m43 M.m44
  + M.m13 * det3 M.m21 M.m22 M.m24 M.m31 M.m32 M.m34 M.m41 M.m42 M.m44
  - M.m14 * det3 M.m21 M.m22 M.m23 M.m31 M.m32 M.m33 M.m41 M.m42 M.m43

/-- THREE.Matrix4.invert: the classical adjugate inverse, with the
all-zero matrix as the singular fallback.  In exact arithmetic this is
the unique matrix inverse whenever the determinant is nonzero (verified
below by `mul_invert`), so it coincides with the cofactor formulas the
library spells out. -/
def invert (M : Mat4) : Mat4 :=
  if det M = 0 then zeroM else
  let d := det M
  { m11 :=  det3 M.m22 M.m23 M.m24 M.m32 M.m33 M.m34 M.m42 M.m43 M.m44 / d
    m12 := -det3 M.m12 M.m13 M.m14 M.m32 M.m33 M.m34 M.m42 M.m43 M.m44 / d
    m13 :=  det3 M.m12 M.m13 M.m14 M.m22 M.m23 M.m24 M.m42 M.m43 M.m44 / d
    m14 := -det3 M.m12 M.m13 M.m14 M.m22 M.m23 M.m24 M.m32 M.m33 M.m34 / d
    m21 := -det3 M.m21 M.m23 M.m24 M.m31 M.m33 M.m34 M.m41 M.m43 M.m44 / d
    m22 :=  det3 M.m11 M.m13 M.m14 M.m31 M.m33 M.m34 M.m41 M.m43 M.m44 / d
    m23 := -det3 M.m11 M.m13 M.m14 M.m21 M.m23 M.m24 M.m41 M.m43 M.m44 / d
    m24 :=  det3 M.m11 M.m13 M.m14 M.m21 M.m23 M.m24 M.m31 M.m33 M.m34 / d
    m31 :=  det3 M.m21 M.m22 M.m24 M.m31 M.m32 M.m34 M.m41 M.m42 M.m44 / d
    m32 := -det3 M.m11 M.m12 M.m14 M.m31 M.m32 M.m34 M.m41 M.m42 M.m44 / d
    m33 :=  det3 M.m11 M.m12 M.m14 M.m21 M.m22 M.m24 M.m41 M.m42 M.m44 / d
    m34 := -det3 M.m11 M.m12 M.m14 M.m21 M.m22 M.m24 M.m31 M.m32 M.m34 / d
    m41 := -det3 M.m21 M.m22 M.m23 M.m31 M.m32 M.m33 M.m41 M.m42 M.m43 / d
    m42 :=  det3 M.m11 M.m12 M.m13 M.m31 M.m32 M.m33 M.m41 M.m42 M.m43 / d
    m43 := -det3 M.m11 M.m12 M.m13 M.m21 M.m22 M.m23 M.m41 M.m42 M.m43 / d
    m44 :=  det3 M.m11 M.m12 M.m13 M.m21 M.m22 M.m23 M.m31 M.m32 M.m33 / d }

/-- Matrix product (row times column). -/
def mul (A B : Mat4) : Mat4 :=
  { m11 := A.m11*B.m11 + A.m12*B.m21 + A.m13*B.m31 + A.m14*B.m41
    m12 := A.m11*B.m12 + A.m12*B.m22 + A.m13*B.m32 + A.m14*B.m42
    m13 := A.m11*B.m13 + A.m12*B.m23 + A.m13*B.m33 + A.m14*B.m43
    m14 := A.m11*B.m14 + A.m12*B.m24 + A.m13*B.m34 + A.m14*B.m44
    m21 := A.m21*B.m11 + A.m22*B.m21 + A.m23*B.m31 + A.m24*B.m41
    m22 := A.m21*B.m12 + A.m22*B.m22 + A.m23*B.m32 + A.m24*B.m42
    m23 := A.m21*B.m13 + A.m22*B.m23 + A.m23*B.m33 + A.m24*B.m43
    m24 := A.m21*B.m14 + A.m22*B.m24 + A.m23*B.m34 + A.m24*B.m44
    m31 := A.m31*B.m11 + A.m32*B.m21 + A.m33*B.m31 + A.m34*B.m41
    m32 := A.m31*B.m12 + A.m32*B.m22 + A.m33*B.m32 + A.m34*B.m42
    m33 := A.m31*B.m13 + A.m32*B.m23 + A.m33*B.m33 + A.m34*B.m43
    m34 := A.m31*B.m14 + A.m32*B.m24 + A.m33*B.m34 + A.m34*B.m44
    m41 := A.m41*B.m11 + A.m42*B.m21 + A.m43*B.m31 + A.m44*B.m41
    m42 := A.m41*B.m12 + A.m42*B.m22 + A.m43*B.m32 + A.m44*B.m42
    m43 := A.m41*B.m13 + A.m42*B.m23 + A.m43*B.m33 + A.m44*B.m43
    m44 := A.m41*B.m14 + A.m42*B.m24 + A.m43*B.m34 + A.m44*B.m44 }

/-- A matrix is affine when its last row is (0,0,0,1); this is the shape
of every translation/rotation/scale matrix the UI feeds to the lattice. -/
def IsAffine (M : Mat4) : Prop :=
  M.m41 = 0 ∧ M.m42 = 0 ∧ M.m43 = 0 ∧ M.m44 = 1

instance (M : Mat4) : Decidable (IsAffine M) := by
  unfold IsAffine; infer_instance

set_option maxHeartbeats 2000000 in
theorem mul_invert (M : Mat4) (h : det M ≠ 0) : mul M (invert M) = idM := by
  rw [invert, if_neg h]
  ext <;>
    (simp only [mul, idM, ← mul_div_assoc, ← neg_div, div_sub_div_same,
       div_add_div_same]
     rw [div_eq_iff h]
     unfold det det3
     ring)

end Mat4

/-- THREE.Vector3.applyMatrix4: homogeneous transform followed by the
perspective divide.  For affine matrices the divisor is 1. -/
def applyM4 (M : Mat4) (v : Vec3) : Vec3 :=
  let w : ℚ := 1 / (M.m41 * v.x + M.m42 * v.y + M.m43 * v.z + M.m44)
  ⟨(M.m11 * v.x + M.m12 * v.y + M.m13 * v.z + M.m14) * w,
   (M.m21 * v.x + M.m22 * v.y + M.m23 * v.z + M.m24) * w,
   (M.m31 * v.x + M.m32 * v.y + M.m33 * v.z + M.m34) * w⟩

theorem applyM4_id (v : Vec3) : applyM4 Mat4.idM v = v := by
  simp [applyM4, Mat4.idM]

/-- Key cancellation: an affine invertible transform applied after its
own (THREE-computed) inverse returns every point unchanged. -/
theorem applyM4_invert_cancel (T : Mat4) (hA : T.IsAffine)
    (hd : Mat4.det T ≠ 0) (p : Vec3) :
    applyM4 T (applyM4 (Mat4.invert T) p) = p := by
  obtain ⟨h41, h42, h43, h44⟩ := hA
  have hTN := Mat4.mul_invert T hd
  set N := Mat4.invert T with hN
  -- The sixteen entries of T * N = identity.
  have e11 : T.m11*N.m11 + T.m12*N.m21 + T.m13*N.m31 + T.m14*N.m41 = 1 :=
    congrArg Mat4.m11 hTN
  have e12 : T.m11*N.m12 + T.m12*N.m22 + T.m13*N.m32 + T.m14*N.m42 = 0 :=
    congrArg Mat4.m12 hTN
  have e13 : T.m11*N.m13 + T.m12*N.m23 + T.m13*N.m33 + T.m14*N.m43 = 0 :=
    congrArg Mat4.m13 hTN
  have e14 : T.m11*N.m14 + T.m12*N.m24 + T.m13*N.m34 + T.m14*N.m44 = 0 :=
    congrArg Mat4.m14 hTN
  have e21 : T.m21*N.m11 + T.m22*N.m21 + T.m23*N.m31 + T.m24*N.m41 = 0 :=
    congrArg Mat4.m21 hTN
  have e22 : T.m21*N.m12 + T.m22*N.m22 + T.m23*N.m32 + T.m24*N.m42 = 1 :=
    congrArg Mat4.m22 hTN
  have e23 : T.m21*N.m13 + T.m22*N.m23 + T.m23*N.m33 + T.m24*N.m43 = 0 :=
    congrArg Mat4.m23 hTN
  have e24 : T.m21*N.m14 + T.m22*N.m24 + T.m23*N.m34 + T.m24*N.m44 = 0 :=
    congrArg Mat4.m24 hTN
  have e31 : T.m31*N.m11 + T.m32*N.m21 + T.m33*N.m31 + T.m34*N.m41 = 0 :=
    congrArg Mat4.m31 hTN
  have e32 : T.m31*N.m12 + T.m32*N.m22 + T.m33*N.m32 + T.m34*N.m42 = 0 :=
    congrArg Mat4.m32 hTN
  have e33 : T.m31*N.m13 + T.m32*N.m23 + T.m33*N.m33 + T.m34*N.m43 = 1 :=
    congrArg Mat4.m33 hTN
  have e34 : T.m31*N.m14 + T.m32*N.m24 + T.m33*N.m34 + T.m34*N.m44 = 0 :=
    congrArg Mat4.m34 hTN
  have e41 : T.m41*N.m11 + T.m42*N.m21 + T.m43*N.m31 + T.m44*N.m41 = 0 :=
    congrArg Mat4.m41 hTN
  have e42 : T.m41*N.m12 + T.m42*N.m22 + T.m43*N.m32 + T.m44*N.m42 = 0 :=
    congrArg Mat4.m42 hTN
  have e43 : T.m41*N.m13 + T.m42*N.m23 + T.m43*N.m33 + T.m44*N.m43 = 0 :=
    congrArg Mat4.m43 hTN
  have e44 : T.m41*N.m14 + T.m42*N.m24 + T.m43*N.m34 + T.m44*N.m44 = 1 :=
    congrArg Mat4.m44 hTN
  -- Because T is affine, those last-row equations pin down N's last row.
  rw [h41, h42, h43, h44] at e41 e42 e43 e44
  simp only [zero_mul, one_mul, zero_add] at e41 e42 e43 e44
  simp only [e41, e42, e43, e44, mul_zero, mul_one, add_zero] at e11 e12 e13 e14 e21 e22 e23 e24 e31 e32 e33 e34
  -- Now compute both homogeneous applications.
  simp only [applyM4, e41, e42, e43, e44, h41, h42, h43, h44]
  have hw : (0:ℚ) * p.x + 0 * p.y + 0 * p.z + 1 = 1 := by ring
  rw [hw]
  simp only [div_one, one_div]
  refine Vec3.ext ?_ ?_ ?_ <;> simp only [] <;>
    [linear_combination p.x * e11 + p.y * e12 + p.z * e13 + e14;
     linear_combination p.x * e21 + p.y * e22 + p.z * e23 + e24;
     linear_combination p.x * e31 + p.y * e32 + p.z * e33 + e34]

theorem invert_id : Mat4.invert Mat4.idM = Mat4.idM := by decide

/-! ## The FFD control-lattice engine (src/utils/FFD.ts) -/

/-- FFDSettings from types/footwear: the per-axis subdivision counts the
UI passes to the constructor. -/
structure FFDSettings where
  lengthSubdivisions : ℕ
  heightSubdivisions : ℕ
  widthSubdivisions : ℕ
  deriving DecidableEq, Repr

/-- Bounding-box minimum of a vertex list (THREE.Box3.setFromBufferAttribute).
The value on an empty list is irrelevant to every statement below. -/
def bboxMin (ps : List Vec3) : Vec3 := ps.foldl Vec3.vmin (ps.headD Vec3.zero)

/-- Bounding-box maximum of a vertex list. -/
def bboxMax (ps : List Vec3) : Vec3 := ps.foldl Vec3.vmax (ps.headD Vec3.zero)

/-- FFD.binomial: first multiplies the integers n-k+1 .. n onto an
accumulator, then divides by 1 .. k, exactly as the source loop pair does. -/
def binomialQ (n k : ℕ) : ℚ :=
  (List.range k).foldl (fun (c : ℚ) (t : ℕ) => c / ((t : ℚ) + 1))
    ((List.range k).foldl (fun (c : ℚ) (t : ℕ) => c * ((n : ℚ) - (k : ℚ) + 1 + (t : ℚ))) 1)

/-- FFD.bernstein: C(n,i) t^i (1-t)^(n-i). -/
def bernQ (n i : ℕ) (t : ℚ) : ℚ := binomialQ n i * t ^ i * (1 - t) ^ (n - i)

/-- FFD.initializeControlPoints: the evenly spaced grid over the bounding
box, as the nested arrays the source builds (stepX = size.x / l, and point
(i,j,k) sits at paddedMin + (i stepX, j stepY, k stepZ)). -/
def initGrid (bmin size : Vec3) (l m n : ℕ) : List (List (List Vec3)) :=
  (List.range (l + 1)).map fun (i : ℕ) =>
    (List.range (m + 1)).map fun (j : ℕ) =>
      (List.range (n + 1)).map fun (k : ℕ) =>
        ⟨bmin.x + (i : ℚ) * (size.x / (l : ℚ)),
         bmin.y + (j : ℚ) * (size.y / (m : ℚ)),
         bmin.z + (k : ℚ) * (size.z / (n : ℚ))⟩

/-- Read control point (i,j,k) from the nested grid (defaulting out of
range, where the source would read undefined). -/
def getCP (cp : List (List (List Vec3))) (i j k : ℕ) : Vec3 :=
  (((cp.getD i []).getD j []).getD k Vec3.zero)

/-- Write control point (i,j,k) in the nested grid. -/
def setCP (cp : List (List (List Vec3))) (i j k : ℕ) (p : Vec3) :
    List (List (List Vec3)) :=
  cp.set i ((cp.getD i []).set j (((cp.getD i []).getD j []).set k p))

/-- The state of one FFD engine instance: the private fields of the class.
lastDeformedGeometry, the subscriber list and vertex normals are not
modelled (no claim mentions them). -/
structure FFDState where
  l : ℕ
  m : ℕ
  n : ℕ
  bmin : Vec3
  bsize : Vec3
  controlPoints : List (List (List Vec3))
  originalControlPoints : List (List (List Vec3))
  initialControlPoints : List (List (List Vec3))
  originalPositions : List Vec3
  geomPositions : List Vec3
  currentTransform : Mat4
  deriving DecidableEq, Repr

namespace FFDState

/-- FFD constructor.  Subdivision counts go through
Math.max(2, settings.X || 2); over the naturals (0 is the only falsy
value and max 2 0 = 2) this is exactly max 2.  The working, local and
initial point sets all start as the same evenly spaced grid. -/
def construct (ps : List Vec3) (s0 : FFDSettings) : FFDState :=
  let l := max 2 s0.lengthSubdivisions
  let m := max 2 s0.heightSubdivisions
  let n := max 2 s0.widthSubdivisions
  let bmin := bboxMin ps
  let bsize := Vec3.sub (bboxMax ps) bmin
  let grid := initGrid bmin bsize l m n
  ⟨l, m, n, bmin, bsize, grid, grid, grid, ps, ps, Mat4.idM⟩

/-- FFD.calculateLocalCoordinates.  A zero-size axis yields coordinate 0;
the result is snapped to exactly 0 or 1 within epsilon = 1e-6.  The
isFinite guards of the source cannot fire over the rationals (the
division is already guarded by the zero-size test). -/
def clampEps (c : ℚ) : ℚ :=
  let eps : ℚ := 1 / 1000000
  let c1 := if |c| < eps then 0 else c
  if |c1 - 1| < eps then 1 else c1

def calcLocal (st : FFDState) (v : Vec3) : ℚ × ℚ × ℚ :=
  let s := if st.bsize.x ≠ 0 then (v.x - st.bmin.x) / st.bsize.x else 0
  let t := if st.bsize.y ≠ 0 then (v.y - st.bmin.y) / st.bsize.y else 0
  let u := if st.bsize.z ≠ 0 then (v.z - st.bmin.z) / st.bsize.z else 0
  (clampEps s, clampEps t, clampEps u)

/-- FFD.calculateDeformedPosition: the renormalized trivariate Bernstein
blend of the working control points. -/
def calcDeformed (st : FFDState) (sp tp up : ℚ) : Vec3 :=
  let w : ℕ → ℕ → ℕ → ℚ := fun i j k =>
    bernQ st.l i sp * bernQ st.m j tp * bernQ st.n k up
  let W : ℚ := ∑ i ∈ Finset.range (st.l + 1), ∑ j ∈ Finset.range (st.m + 1),
    ∑ k ∈ Finset.range (st.n + 1), w i j k
  let R : Vec3 :=
    ⟨∑ i ∈ Finset.range (st.l + 1), ∑ j ∈ Finset.range (st.m + 1),
       ∑ k ∈ Finset.range (st.n + 1), w i j k * (getCP st.controlPoints i j k).x,
     ∑ i ∈ Finset.range (st.l + 1), ∑ j ∈ Finset.range (st.m + 1),
       ∑ k ∈ Finset.range (st.n + 1), w i j k * (getCP st.controlPoints i j k).y,
     ∑ i ∈ Finset.range (st.l + 1), ∑ j ∈ Finset.range (st.m + 1),
       ∑ k ∈ Finset.range (st.n + 1), w i j k * (getCP st.controlPoints i j k).z⟩
  if W > 0 then R.divScalar W else R

/-- FFD.deform: map every original vertex through the blend and then
through the inverse of the current transform.  Vertex normals are not
modelled. -/
def deform (st : FFDState) : FFDState :=
  if st.controlPoints = [] then st else
  let invT := Mat4.invert st.currentTransform
  { st with geomPositions := st.originalPositions.map fun v =>
      let lc := calcLocal st v
      applyM4 invT (calcDeformed st lc.1 lc.2.1 lc.2.2) }

/-- FFD.updateTransform: store the matrix, rebuild the working points as
the transformed local points, and re-deform. -/
def updateTransform (M : Mat4) (st : FFDState) : FFDState :=
  deform { st with
    currentTransform := M
    controlPoints := st.originalControlPoints.map fun pl =>
      pl.map fun row => row.map (applyM4 M) }

/-- FFD.moveControlPoint: no-op when the indices address no existing
point; otherwise set the working point, back-transform into the local
point (skipping the inverse when the current transform is the identity),
and re-deform. -/
def moveControlPoint (i j k : ℕ) (p : Vec3) (st : FFDState) : FFDState :=
  if i < st.controlPoints.length ∧ j < (st.controlPoints.getD i []).length ∧
      k < ((st.controlPoints.getD i []).getD j []).length then
    let localPosition :=
      if st.currentTransform = Mat4.idM then p
      else applyM4 (Mat4.invert st.currentTransform) p
    deform { st with
      controlPoints := setCP st.controlPoints i j k p
      originalControlPoints := setCP st.originalControlPoints i j k localPosition }
  else st

/-- FFD.reset: restore the vertex buffer from the cached originals,
restore both point sets from the immutable initial snapshot, clear the
transform, and re-deform. -/
def reset (st : FFDState) : FFDState :=
  deform { st with
    geomPositions := st.originalPositions
    controlPoints := st.initialControlPoints
    originalControlPoints := st.initialControlPoints
    currentTransform := Mat4.idM }

end FFDState

/-! ### Bernstein basis facts, in the evaluated form the engine uses -/

theorem binomialQ_eq_choose {n k : ℕ} (h : k ≤ n) :
    binomialQ n k = (n.choose k : ℚ) := by
  have hmul : ∀ (a : ℚ) (r : ℕ) (f : ℕ → ℚ),
      (List.range r).foldl (fun c t => c * f t) a = a * ∏ t ∈ Finset.range r, f t := by
    intro a r f
    induction r generalizing a with
    | zero => simp
    | succ r ih =>
      rw [List.range_succ, List.foldl_append, ih, Finset.prod_range_succ]
      simp [mul_assoc]
  have hdiv : ∀ (a : ℚ) (r : ℕ),
      (List.range r).foldl (fun (c : ℚ) (t : ℕ) => c / ((t : ℚ) + 1)) a
        = a / (r.factorial : ℚ) := by
    intro a r
    induction r generalizing a with
    | zero => simp
    | succ r ih =>
      rw [List.range_succ, List.foldl_append, ih]
      simp only [List.foldl_cons, List.foldl_nil]
      rw [div_div]
      congr 1
      rw [Nat.factorial_succ]
      push_cast
      ring
  unfold binomialQ
  rw [hmul, hdiv, one_mul]
  have hprod : (∏ t ∈ Finset.range k, ((n : ℚ) - (k : ℚ) + 1 + (t : ℚ)))
      = (n.descFactorial k : ℚ) := by
    rw [Nat.descFactorial_eq_prod_range, Nat.cast_prod,
      ← Finset.prod_range_reflect (fun i => ((n - i : ℕ) : ℚ)) k]
    apply Finset.prod_congr rfl
    intro j hj
    simp only [Finset.mem_range] at hj
    have e1 : n - (k - 1 - j) = n - k + 1 + j := by omega
    rw [e1]
    have e2 : ((n - k + 1 + j : ℕ) : ℚ) = ((n - k : ℕ) : ℚ) + 1 + (j : ℚ) := by
      push_cast
      ring
    rw [e2, Nat.cast_sub h]
  rw [hprod, Nat.descFactorial_eq_factorial_mul_choose]
  push_cast
  rw [mul_comm, mul_div_assoc, div_self, mul_one]
  exact_mod_cast Nat.factorial_ne_zero k

/-- Partition of unity for the engine's Bernstein basis (binomial theorem). -/
theorem sumBern (n : ℕ) (t : ℚ) :
    (∑ i ∈ Finset.range (n + 1), bernQ n i t) = 1 := by
  have : ∀ i ∈ Finset.range (n + 1), bernQ n i t
      = t ^ i * (1 - t) ^ (n - i) * (n.choose i : ℚ) := by
    intro i hi
    simp only [Finset.mem_range] at hi
    rw [bernQ, binomialQ_eq_choose (Nat.lt_succ_iff.mp hi)]
    ring
  calc (∑ i ∈ Finset.range (n + 1), bernQ n i t)
      = ∑ i ∈ Finset.range (n + 1), t ^ i * (1 - t) ^ (n - i) * (n.choose i : ℚ) :=
        Finset.sum_congr rfl this
    _ = (t + (1 - t)) ^ n := (add_pow t (1 - t) n).symm
    _ = 1 := by norm_num

/-- Linear precision for the engine's Bernstein basis (the evaluated form
of the Mathlib identity on first moments of Bernstein polynomials). -/
theorem sumIBern (n : ℕ) (t : ℚ) :
    (∑ i ∈ Finset.range (n + 1), (i : ℚ) * bernQ n i t) = (n : ℚ) * t := by
  have hpoly := bernsteinPolynomial.sum_smul ℚ n
  have hkey := congrArg (Polynomial.eval t) hpoly
  rw [Polynomial.eval_finset_sum] at hkey
  simp only [nsmul_eq_mul, Polynomial.eval_mul, Polynomial.eval_natCast,
    Polynomial.eval_X] at hkey
  rw [← hkey]
  apply Finset.sum_congr rfl
  intro i hi
  simp only [Finset.mem_range] at hi
  rw [bernsteinPolynomial, bernQ, binomialQ_eq_choose (Nat.lt_succ_iff.mp hi)]
  simp only [Polynomial.eval_mul, Polynomial.eval_smul, Polynomial.eval_pow,
    Polynomial.eval_sub, Polynomial.eval_one, Polynomial.eval_X, nsmul_eq_mul,
    Polynomial.eval_natCast]

end Footwear

namespace Footwear

/-! ### Linear precision of the blend over the freshly built grid -/

theorem clampEps_close (c : ℚ) : |FFDState.clampEps c - c| ≤ 1 / 1000000 := by
  simp only [FFDState.clampEps]
  split_ifs with h1 h2 h3
  · exfalso
    rw [show (0 : ℚ) - 1 = -1 by ring] at h2
    norm_num at h2
  · simpa [abs_sub_comm] using le_of_lt h1
  · rw [abs_sub_comm] at h3
    exact le_of_lt h3
  · simp

theorem getCP_initGrid {bmin size : Vec3} {l m n i j k : ℕ}
    (hi : i < l + 1) (hj : j < m + 1) (hk : k < n + 1) :
    getCP (initGrid bmin size l m n) i j k =
      ⟨bmin.x + (i : ℚ) * (size.x / (l : ℚ)),
       bmin.y + (j : ℚ) * (size.y / (m : ℚ)),
       bmin.z + (k : ℚ) * (size.z / (n : ℚ))⟩ := by
  have getD_map_range : ∀ {α : Type} (r : ℕ) (f : ℕ → α) (i : ℕ) (d : α),
      i < r → ((List.range r).map f).getD i d = f i := by
    intro α r f i d h
    rw [List.getD_eq_getElem _ _ (by simpa using h)]
    simp
  unfold getCP initGrid
  rw [getD_map_range _ _ _ _ hi, getD_map_range _ _ _ _ hj,
    getD_map_range _ _ _ _ hk]

theorem tripleFactor (a b c : ℕ) (f g h : ℕ → ℚ) :
    (∑ i ∈ Finset.range a, ∑ j ∈ Finset.range b, ∑ k ∈ Finset.range c,
        f i * g j * h k)
    = (∑ i ∈ Finset.range a, f i) * (∑ j ∈ Finset.range b, g j) *
        (∑ k ∈ Finset.range c, h k) := by
  rw [Finset.sum_mul_sum, Finset.sum_mul_sum]
  apply Finset.sum_congr rfl
  intro i _
  rw [Finset.sum_comm]
  apply Finset.sum_congr rfl
  intro k _
  rw [Finset.sum_mul]

theorem bern_weighted_line (n : ℕ) (t c q : ℚ) :
    (∑ i ∈ Finset.range (n + 1), bernQ n i t * (c + (i : ℚ) * q))
      = c + ((n : ℚ) * t) * q := by
  have : ∀ i ∈ Finset.range (n + 1), bernQ n i t * (c + (i : ℚ) * q)
      = bernQ n i t * c + ((i : ℚ) * bernQ n i t) * q := by
    intro i _
    ring
  rw [Finset.sum_congr rfl this, Finset.sum_add_distrib, ← Finset.sum_mul,
    ← Finset.sum_mul, sumBern, sumIBern, one_mul]

theorem calcDeformed_grid (st : FFDState)
    (hcp : st.controlPoints = initGrid st.bmin st.bsize st.l st.m st.n)
    (hl : st.l ≠ 0) (hm : st.m ≠ 0) (hn : st.n ≠ 0) (sp tp up : ℚ) :
    FFDState.calcDeformed st sp tp up =
      ⟨st.bmin.x + sp * st.bsize.x, st.bmin.y + tp * st.bsize.y,
       st.bmin.z + up * st.bsize.z⟩ := by
  have hlq : (st.l : ℚ) ≠ 0 := Nat.cast_ne_zero.mpr hl
  have hmq : (st.m : ℚ) ≠ 0 := Nat.cast_ne_zero.mpr hm
  have hnq : (st.n : ℚ) ≠ 0 := Nat.cast_ne_zero.mpr hn
  unfold FFDState.calcDeformed
  have hW : (∑ i ∈ Finset.range (st.l + 1), ∑ j ∈ Finset.range (st.m + 1),
      ∑ k ∈ Finset.range (st.n + 1),
        bernQ st.l i sp * bernQ st.m j tp * bernQ st.n k up) = 1 := by
    rw [tripleFactor, sumBern, sumBern, sumBern]
    norm_num
  have hx : (∑ i ∈ Finset.range (st.l + 1), ∑ j ∈ Finset.range (st.m + 1),
      ∑ k ∈ Finset.range (st.n + 1),
        bernQ st.l i sp * bernQ st.m j tp * bernQ st.n k up *
          (getCP st.controlPoints i j k).x) = st.bmin.x + sp * st.bsize.x := by
    have hstep : (∑ i ∈ Finset.range (st.l + 1), ∑ j ∈ Finset.range (st.m + 1),
        ∑ k ∈ Finset.range (st.n + 1),
          bernQ st.l i sp * bernQ st.m j tp * bernQ st.n k up *
            (getCP st.controlPoints i j k).x)
        = ∑ i ∈ Finset.range (st.l + 1), ∑ j ∈ Finset.range (st.m + 1),
          ∑ k ∈ Finset.range (st.n + 1),
            (bernQ st.l i sp * (st.bmin.x + (i : ℚ) * (st.bsize.x / (st.l : ℚ)))) *
              bernQ st.m j tp * bernQ st.n k up := by
      apply Finset.sum_congr rfl
      intro i hi
      apply Finset.sum_congr rfl
      intro j hj
      apply Finset.sum_congr rfl
      intro k hk
      simp only [Finset.mem_range] at hi hj hk
      rw [hcp, getCP_initGrid hi hj hk]
      ring
    rw [hstep, tripleFactor, sumBern, sumBern, bern_weighted_line, mul_one,
      mul_one]
    congr 1
    field_simp
    ring
  have hy : (∑ i ∈ Finset.range (st.l + 1), ∑ j ∈ Finset.range (st.m + 1),
      ∑ k ∈ Finset.range (st.n + 1),
        bernQ st.l i sp * bernQ st.m j tp * bernQ st.n k up *
          (getCP st.controlPoints i j k).y) = st.bmin.y + tp * st.bsize.y := by
    have hstep : (∑ i ∈ Finset.range (st.l + 1), ∑ j ∈ Finset.range (st.m + 1),
        ∑ k ∈ Finset.range (st.n + 1),
          bernQ st.l i sp * bernQ st.m j tp * bernQ st.n k up *
            (getCP st.controlPoints i j k).y)
        = ∑ i ∈ Finset.range (st.l + 1), ∑ j ∈ Finset.range (st.m + 1),
          ∑ k ∈ Finset.range (st.n + 1),
            bernQ st.l i sp *
              (bernQ st.m j tp * (st.bmin.y + (j : ℚ) * (st.bsize.y / (st.m : ℚ)))) *
              bernQ st.n k up := by
      apply Finset.sum_congr rfl
      intro i hi
      apply Finset.sum_congr rfl
      intro j hj
      apply Finset.sum_congr rfl
      intro k hk
      simp only [Finset.mem_range] at hi hj hk
      rw [hcp, getCP_initGrid hi hj hk]
      ring
    rw [hstep, tripleFactor, sumBern, sumBern, bern_weighted_line, one_mul,
      mul_one]
    congr 1
    field_simp
    ring
  have hz : (∑ i ∈ Finset.range (st.l + 1), ∑ j ∈ Finset.range (st.m + 1),
      ∑ k ∈ Finset.range (st.n + 1),
        bernQ st.l i sp * bernQ st.m j tp * bernQ st.n k up *
          (getCP st.controlPoints i j k).z) = st.bmin.z + up * st.bsize.z := by
    have hstep : (∑ i ∈ Finset.range (st.l + 1), ∑ j ∈ Finset.range (st.m + 1),
        ∑ k ∈ Finset.range (st.n + 1),
          bernQ st.l i sp * bernQ st.m j tp * bernQ st.n k up *
            (getCP st.controlPoints i j k).z)
        = ∑ i ∈ Finset.range (st.l + 1), ∑ j ∈ Finset.range (st.m + 1),
          ∑ k ∈ Finset.range (st.n + 1),
            bernQ st.l i sp * bernQ st.m j tp *
              (bernQ st.n k up * (st.bmin.z + (k : ℚ) * (st.bsize.z / (st.n : ℚ)))) := by
      apply Finset.sum_congr rfl
      intro i hi
      apply Finset.sum_congr rfl
      intro j hj
      apply Finset.sum_congr rfl
      intro k hk
      simp only [Finset.mem_range] at hi hj hk
      rw [hcp, getCP_initGrid hi hj hk]
      ring
    rw [hstep, tripleFactor, sumBern, sumBern, bern_weighted_line, one_mul,
      one_mul]
    congr 1
    field_simp
    ring
  simp only [hW, hx, hy, hz]
  norm_num [Vec3.divScalar]

theorem initGrid_ne_nil (bmin size : Vec3) (l m n : ℕ) :
    initGrid bmin size l m n ≠ [] := by
  unfold initGrid
  simp [List.range_succ]

/-- What deform produces when the working points are the fresh grid and
the transform is the identity: every original vertex maps to the blend
of its clamped parametric coordinates, with no matrix correction. -/
theorem deform_grid_id (st : FFDState)
    (hcp : st.controlPoints = initGrid st.bmin st.bsize st.l st.m st.n)
    (hT : st.currentTransform = Mat4.idM)
    (hl : st.l ≠ 0) (hm : st.m ≠ 0) (hn : st.n ≠ 0) :
    (FFDState.deform st).geomPositions = st.originalPositions.map fun v =>
      ⟨st.bmin.x +
         FFDState.clampEps (if st.bsize.x ≠ 0 then (v.x - st.bmin.x) / st.bsize.x else 0) *
           st.bsize.x,
       st.bmin.y +
         FFDState.clampEps (if st.bsize.y ≠ 0 then (v.y - st.bmin.y) / st.bsize.y else 0) *
           st.bsize.y,
       st.bmin.z +
         FFDState.clampEps (if st.bsize.z ≠ 0 then (v.z - st.bmin.z) / st.bsize.z else 0) *
           st.bsize.z⟩ := by
  unfold FFDState.deform
  rw [if_neg (by rw [hcp]; exact initGrid_ne_nil _ _ _ _ _)]
  simp only [hT, invert_id]
  apply List.map_congr_left
  intro v _
  rw [show FFDState.calcLocal st v =
      (FFDState.clampEps (if st.bsize.x ≠ 0 then (v.x - st.bmin.x) / st.bsize.x else 0),
       FFDState.clampEps (if st.bsize.y ≠ 0 then (v.y - st.bmin.y) / st.bsize.y else 0),
       FFDState.clampEps (if st.bsize.z ≠ 0 then (v.z - st.bmin.z) / st.bsize.z else 0)) from rfl]
  rw [calcDeformed_grid st hcp hl hm hn, applyM4_id]

/-! ### Bounding-box facts -/

theorem foldl_vmin_le_init (l : List Vec3) (init : Vec3) :
    (l.foldl Vec3.vmin init).x ≤ init.x ∧ (l.foldl Vec3.vmin init).y ≤ init.y ∧
      (l.foldl Vec3.vmin init).z ≤ init.z := by
  induction l generalizing init with
  | nil => simp
  | cons h t ih =>
    simp only [List.foldl_cons]
    refine ⟨le_trans (ih (Vec3.vmin init h)).1 ?_,
      le_trans (ih (Vec3.vmin init h)).2.1 ?_,
      le_trans (ih (Vec3.vmin init h)).2.2 ?_⟩ <;>
      simp [Vec3.vmin]

theorem foldl_vmax_ge_init (l : List Vec3) (init : Vec3) :
    init.x ≤ (l.foldl Vec3.vmax init).x ∧ init.y ≤ (l.foldl Vec3.vmax init).y ∧
      init.z ≤ (l.foldl Vec3.vmax init).z := by
  induction l generalizing init with
  | nil => simp
  | cons h t ih =>
    simp only [List.foldl_cons]
    refine ⟨le_trans ?_ (ih (Vec3.vmax init h)).1,
      le_trans ?_ (ih (Vec3.vmax init h)).2.1,
      le_trans ?_ (ih (Vec3.vmax init h)).2.2⟩ <;>
      simp [Vec3.vmax]

theorem foldl_vmin_le_mem (l : List Vec3) (init v : Vec3) (hv : v ∈ l) :
    (l.foldl Vec3.vmin init).x ≤ v.x ∧ (l.foldl Vec3.vmin init).y ≤ v.y ∧
      (l.foldl Vec3.vmin init).z ≤ v.z := by
  induction l generalizing init with
  | nil => cases hv
  | cons h t ih =>
    simp only [List.foldl_cons]
    rcases List.mem_cons.mp hv with rfl | hvt
    · refine (foldl_vmin_le_init t (Vec3.vmin init v)).imp
        (fun h1 => le_trans h1 (by simp [Vec3.vmin]))
        (fun hp => hp.imp
          (fun h1 => le_trans h1 (by simp [Vec3.vmin]))
          (fun h1 => le_trans h1 (by simp [Vec3.vmin])))
    · exact ih (Vec3.vmin init h) hvt

theorem foldl_vmax_ge_mem (l : List Vec3) (init v : Vec3) (hv : v ∈ l) :
    v.x ≤ (l.foldl Vec3.vmax init).x ∧ v.y ≤ (l.foldl Vec3.vmax init).y ∧
      v.z ≤ (l.foldl Vec3.vmax init).z := by
  induction l generalizing init with
  | nil => cases hv
  | cons h t ih =>
    simp only [List.foldl_cons]
    rcases List.mem_cons.mp hv with rfl | hvt
    · refine (foldl_vmax_ge_init t (Vec3.vmax init v)).imp
        (fun h1 => le_trans (by simp [Vec3.vmax]) h1)
        (fun hp => hp.imp
          (fun h1 => le_trans (by simp [Vec3.vmax]) h1)
          (fun h1 => le_trans (by simp [Vec3.vmax]) h1))
    · exact ih (Vec3.vmax init h) hvt

theorem bboxMin_le {ps : List Vec3} {v : Vec3} (hv : v ∈ ps) :
    (bboxMin ps).x ≤ v.x ∧ (bboxMin ps).y ≤ v.y ∧ (bboxMin ps).z ≤ v.z :=
  foldl_vmin_le_mem ps (ps.headD Vec3.zero) v hv

theorem bboxMax_ge {ps : List Vec3} {v : Vec3} (hv : v ∈ ps) :
    v.x ≤ (bboxMax ps).x ∧ v.y ≤ (bboxMax ps).y ∧ v.z ≤ (bboxMax ps).z :=
  foldl_vmax_ge_mem ps (ps.headD Vec3.zero) v hv

/-- One axis of the identity-deform bound: the clamped parametric
coordinate reproduces the input coordinate up to epsilon times the axis
extent. -/
theorem blend_coord_close (lo hi c : ℚ) (h1 : lo ≤ c) (h2 : c ≤ hi) :
    |(lo + FFDState.clampEps (if hi - lo ≠ 0 then (c - lo) / (hi - lo) else 0) *
        (hi - lo)) - c| ≤ (1 / 1000000) * (hi - lo) := by
  have hnn : (0 : ℚ) ≤ hi - lo := by linarith
  by_cases hsz : hi - lo = 0
  · rw [if_neg (by simpa using hsz)]
    have hc : c = lo := by linarith
    have h0 : FFDState.clampEps 0 = 0 := by decide
    rw [h0, hc, hsz]
    norm_num
  · rw [if_pos hsz]
    set s0 := (c - lo) / (hi - lo) with hs0
    have hrt : s0 * (hi - lo) = c - lo := div_mul_cancel₀ _ hsz
    have hclose := clampEps_close s0
    have hkey : lo + FFDState.clampEps s0 * (hi - lo) - c
        = (FFDState.clampEps s0 - s0) * (hi - lo) := by
      rw [sub_mul, hrt]
      ring
    rw [hkey, abs_mul, abs_of_nonneg hnn]
    exact mul_le_mul_of_nonneg_right hclose hnn

theorem construct_fields (ps : List Vec3) (s0 : FFDSettings) :
    (FFDState.construct ps s0).bmin = bboxMin ps ∧
      (FFDState.construct ps s0).bsize = Vec3.sub (bboxMax ps) (bboxMin ps) ∧
      (FFDState.construct ps s0).l = max 2 s0.lengthSubdivisions ∧
      (FFDState.construct ps s0).m = max 2 s0.heightSubdivisions ∧
      (FFDState.construct ps s0).n = max 2 s0.widthSubdivisions ∧
      (FFDState.construct ps s0).controlPoints =
        initGrid (bboxMin ps) (Vec3.sub (bboxMax ps) (bboxMin ps))
          (max 2 s0.lengthSubdivisions) (max 2 s0.heightSubdivisions)
          (max 2 s0.widthSubdivisions) ∧
      (FFDState.construct ps s0).originalPositions = ps ∧
      (FFDState.construct ps s0).currentTransform = Mat4.idM :=
  ⟨rfl, rfl, rfl, rfl, rfl, rfl, rfl, rfl⟩

/-- The common core of the C2 and C3 position statements: any state
whose working points are the fresh grid over the bounding box of `ps`,
whose transform is the identity, and whose cached originals are `ps`
deforms `ps` to within epsilon of itself, componentwise. -/
theorem deform_close_core (st : FFDState) (ps : List Vec3)
    (hcp : st.controlPoints = initGrid st.bmin st.bsize st.l st.m st.n)
    (hT : st.currentTransform = Mat4.idM)
    (horig : st.originalPositions = ps)
    (hbmin : st.bmin = bboxMin ps)
    (hbsize : st.bsize = Vec3.sub (bboxMax ps) (bboxMin ps))
    (hl : st.l ≠ 0) (hm : st.m ≠ 0) (hn : st.n ≠ 0) :
    (FFDState.deform st).geomPositions.length = ps.length ∧
    ∀ i, i < ps.length →
      |((FFDState.deform st).geomPositions.getD i Vec3.zero).x -
          (ps.getD i Vec3.zero).x| ≤ (1 / 1000000) * st.bsize.x ∧
      |((FFDState.deform st).geomPositions.getD i Vec3.zero).y -
          (ps.getD i Vec3.zero).y| ≤ (1 / 1000000) * st.bsize.y ∧
      |((FFDState.deform st).geomPositions.getD i Vec3.zero).z -
          (ps.getD i Vec3.zero).z| ≤ (1 / 1000000) * st.bsize.z := by
  rw [deform_grid_id st hcp hT hl hm hn, horig]
  refine ⟨by simp, ?_⟩
  intro i hi
  have hmem : ps.getD i Vec3.zero ∈ ps := by
    rw [List.getD_eq_getElem _ _ hi]
    exact List.getElem_mem hi
  set v := ps.getD i Vec3.zero with hv
  have hget : (ps.map fun v =>
      (⟨st.bmin.x + FFDState.clampEps
          (if st.bsize.x ≠ 0 then (v.x - st.bmin.x) / st.bsize.x else 0) * st.bsize.x,
        st.bmin.y + FFDState.clampEps
          (if st.bsize.y ≠ 0 then (v.y - st.bmin.y) / st.bsize.y else 0) * st.bsize.y,
        st.bmin.z + FFDState.clampEps
          (if st.bsize.z ≠ 0 then (v.z - st.bmin.z) / st.bsize.z else 0) * st.bsize.z⟩ :
        Vec3)).getD i Vec3.zero
      = ⟨st.bmin.x + FFDState.clampEps
          (if st.bsize.x ≠ 0 then (v.x - st.bmin.x) / st.bsize.x else 0) * st.bsize.x,
        st.bmin.y + FFDState.clampEps
          (if st.bsize.y ≠ 0 then (v.y - st.bmin.y) / st.bsize.y else 0) * st.bsize.y,
        st.bmin.z + FFDState.clampEps
          (if st.bsize.z ≠ 0 then (v.z - st.bmin.z) / st.bsize.z else 0) * st.bsize.z⟩ := by
    rw [List.getD_eq_getElem _ _ (by simpa using hi), List.getElem_map, hv,
      List.getD_eq_getElem _ _ hi]
  rw [hget]
  have hb1 := bboxMin_le hmem
  have hb2 := bboxMax_ge hmem
  have hsx : st.bsize.x = (bboxMax ps).x - (bboxMin ps).x := by
    rw [hbsize]; rfl
  have hsy : st.bsize.y = (bboxMax ps).y - (bboxMin ps).y := by
    rw [hbsize]; rfl
  have hsz' : st.bsize.z = (bboxMax ps).z - (bboxMin ps).z := by
    rw [hbsize]; rfl
  have hmx : st.bmin.x = (bboxMin ps).x := by rw [hbmin]
  have hmy : st.bmin.y = (bboxMin ps).y := by rw [hbmin]
  have hmz : st.bmin.z = (bboxMin ps).z := by rw [hbmin]
  refine ⟨?_, ?_, ?_⟩
  · simpa only [hsx, hmx] using
      blend_coord_close ((bboxMin ps).x) ((bboxMax ps).x) v.x hb1.1 hb2.1
  · simpa only [hsy, hmy] using
      blend_coord_close ((bboxMin ps).y) ((bboxMax ps).y) v.y hb1.2.1 hb2.2.1
  · simpa only [hsz', hmz] using
      blend_coord_close ((bboxMin ps).z) ((bboxMax ps).z) v.z hb1.2.2 hb2.2.2

/-! ### Nested-grid access lemmas and the dual-storage invariant -/

/-- Shape of a (l+1) x (m+1) x (n+1) nested control-point array. -/
def Grid3WF (cp : List (List (List Vec3))) (l m n : ℕ) : Prop :=
  cp.length = l + 1 ∧ ∀ i, i < l + 1 →
    (cp.getD i []).length = m + 1 ∧ ∀ j, j < m + 1 →
      ((cp.getD i []).getD j []).length = n + 1

theorem grid3wf_initGrid (bmin size : Vec3) (l m n : ℕ) :
    Grid3WF (initGrid bmin size l m n) l m n := by
  unfold Grid3WF initGrid
  refine ⟨by simp, ?_⟩
  intro i hi
  rw [List.getD_eq_getElem _ _ (by simpa using hi)]
  simp only [List.getElem_map, List.getElem_range]
  refine ⟨by simp, ?_⟩
  intro j hj
  rw [List.getD_eq_getElem _ _ (by simpa using hj)]
  simp only [List.getElem_map, List.getElem_range]
  simp

theorem grid3wf_map3 {cp : List (List (List Vec3))} {l m n : ℕ}
    (wf : Grid3WF cp l m n) (f : Vec3 → Vec3) :
    Grid3WF (cp.map fun pl => pl.map fun row => row.map f) l m n := by
  obtain ⟨h1, h2⟩ := wf
  refine ⟨by simpa using h1, ?_⟩
  intro i hi
  have hi' : i < cp.length := by rw [h1]; exact hi
  rw [List.getD_eq_getElem _ _ (by simpa using hi'), List.getElem_map]
  obtain ⟨h3, h4⟩ := h2 i hi
  rw [List.getD_eq_getElem _ _ hi'] at h3 h4
  refine ⟨by simpa using h3, ?_⟩
  intro j hj
  have hj' : j < cp[i].length := by rw [h3]; exact hj
  rw [List.getD_eq_getElem _ _ (by simpa using hj'), List.getElem_map]
  have := h4 j hj
  rw [List.getD_eq_getElem _ _ hj'] at this
  simpa using this

theorem getD_map_lt {α β : Type} (l : List α) (f : α → β) (i : ℕ)
    (d : β) (d' : α) (h : i < l.length) :
    (l.map f).getD i d = f (l.getD i d') := by
  rw [List.getD_eq_getElem _ _ (by simpa using h), List.getElem_map,
    List.getD_eq_getElem _ _ h]

theorem getCP_map3 {cp : List (List (List Vec3))} {l m n i j k : ℕ}
    (wf : Grid3WF cp l m n) (f : Vec3 → Vec3)
    (hi : i < l + 1) (hj : j < m + 1) (hk : k < n + 1) :
    getCP (cp.map fun pl => pl.map fun row => row.map f) i j k
      = f (getCP cp i j k) := by
  obtain ⟨h1, h2⟩ := wf
  obtain ⟨h3, h4⟩ := h2 i hi
  unfold getCP
  rw [getD_map_lt cp _ i [] [] (by omega)]
  rw [getD_map_lt _ _ j [] [] (by omega)]
  rw [getD_map_lt _ _ k Vec3.zero Vec3.zero (by rw [h4 j hj]; exact hk)]

theorem getD_set_eq {α : Type} (l : List α) (i : ℕ) (a d : α)
    (h : i < l.length) : (l.set i a).getD i d = a := by
  rw [List.getD_eq_getElem _ _ (by simpa using h), List.getElem_set_self]

theorem getD_set_ne {α : Type} (l : List α) {i i' : ℕ} (hne : i' ≠ i)
    (a d : α) : (l.set i a).getD i' d = l.getD i' d := by
  rcases Nat.lt_or_ge i' l.length with hlt | hge
  · rw [List.getD_eq_getElem _ _ (by simpa using hlt),
      List.getD_eq_getElem _ _ hlt, List.getElem_set_ne (by omega)]
  · rw [List.getD_eq_default _ _ (by simpa using hge),
      List.getD_eq_default _ _ hge]

theorem getD_set_lenle {α : Type} (l : List α) {i i' : ℕ}
    (hge : l.length ≤ i) (a d : α) : (l.set i a).getD i' d = l.getD i' d := by
  rw [List.set_eq_of_length_le hge]

theorem grid3wf_setCP {cp : List (List (List Vec3))} {l m n i j k : ℕ}
    (wf : Grid3WF cp l m n) (p : Vec3) :
    Grid3WF (setCP cp i j k p) l m n := by
  obtain ⟨h1, h2⟩ := wf
  unfold setCP
  refine ⟨by simpa using h1, ?_⟩
  intro i' hi'
  by_cases hii : i' = i
  · subst hii
    rcases Nat.lt_or_ge i' cp.length with hlt | hge
    · rw [getD_set_eq _ _ _ _ hlt]
      obtain ⟨h3, h4⟩ := h2 i' hi'
      refine ⟨by simpa using h3, ?_⟩
      intro j' hj'
      by_cases hjj : j' = j
      · subst hjj
        rcases Nat.lt_or_ge j' (cp.getD i' []).length with hlt2 | hge2
        · rw [getD_set_eq _ _ _ _ hlt2]
          simpa using h4 j' hj'
        · rw [getD_set_lenle _ hge2]
          exact h4 j' hj'
      · rw [getD_set_ne _ hjj]
        exact h4 j' hj'
    · rw [getD_set_lenle _ hge]
      exact h2 i' hi'
  · rw [getD_set_ne _ hii]
    exact h2 i' hi'

theorem getCP_setCP_eq {cp : List (List (List Vec3))} {l m n i j k : ℕ}
    (wf : Grid3WF cp l m n) (p : Vec3)
    (hi : i < l + 1) (hj : j < m + 1) (hk : k < n + 1) :
    getCP (setCP cp i j k p) i j k = p := by
  obtain ⟨h1, h2⟩ := wf
  obtain ⟨h3, h4⟩ := h2 i hi
  unfold getCP setCP
  rw [getD_set_eq _ _ _ _ (by omega), getD_set_eq _ _ _ _ (by omega),
    getD_set_eq _ _ _ _ (by rw [h4 j hj]; exact hk)]

theorem getCP_setCP_ne {cp : List (List (List Vec3))} {i j k i' j' k' : ℕ}
    (p : Vec3) (hne : ¬(i' = i ∧ j' = j ∧ k' = k)) :
    getCP (setCP cp i j k p) i' j' k' = getCP cp i' j' k' := by
  unfold getCP setCP
  by_cases hii : i' = i
  · subst hii
    rcases Nat.lt_or_ge i' cp.length with hlt | hge
    · rw [getD_set_eq _ _ _ _ hlt]
      by_cases hjj : j' = j
      · subst hjj
        rcases Nat.lt_or_ge j' (cp.getD i' []).length with hlt2 | hge2
        · rw [getD_set_eq _ _ _ _ hlt2]
          have hkk : k' ≠ k := by tauto
          rw [getD_set_ne _ hkk]
        · rw [getD_set_lenle _ hge2]
      · rw [getD_set_ne _ hjj]
    · rw [getD_set_lenle _ hge]
  · rw [getD_set_ne _ hii]

end Footwear

namespace Footwear

/-! ### Field preservation of the mutating operations -/

theorem deform_preserves (st : FFDState) :
    (FFDState.deform st).l = st.l ∧ (FFDState.deform st).m = st.m ∧
    (FFDState.deform st).n = st.n ∧ (FFDState.deform st).bmin = st.bmin ∧
    (FFDState.deform st).bsize = st.bsize ∧
    (FFDState.deform st).controlPoints = st.controlPoints ∧
    (FFDState.deform st).originalControlPoints = st.originalControlPoints ∧
    (FFDState.deform st).initialControlPoints = st.initialControlPoints ∧
    (FFDState.deform st).originalPositions = st.originalPositions ∧
    (FFDState.deform st).currentTransform = st.currentTransform := by
  unfold FFDState.deform
  split_ifs <;>
    exact ⟨rfl, rfl, rfl, rfl, rfl, rfl, rfl, rfl, rfl, rfl⟩

theorem move_preserves (i j k : ℕ) (p : Vec3) (st : FFDState) :
    (FFDState.moveControlPoint i j k p st).l = st.l ∧
    (FFDState.moveControlPoint i j k p st).m = st.m ∧
    (FFDState.moveControlPoint i j k p st).n = st.n ∧
    (FFDState.moveControlPoint i j k p st).bmin = st.bmin ∧
    (FFDState.moveControlPoint i j k p st).bsize = st.bsize ∧
    (FFDState.moveControlPoint i j k p st).initialControlPoints =
      st.initialControlPoints ∧
    (FFDState.moveControlPoint i j k p st).originalPositions =
      st.originalPositions ∧
    (FFDState.moveControlPoint i j k p st).currentTransform =
      st.currentTransform := by
  unfold FFDState.moveControlPoint
  split_ifs <;>
    first
    | exact ⟨rfl, rfl, rfl, rfl, rfl, rfl, rfl, rfl⟩
    | exact ⟨(deform_preserves _).1, (deform_preserves _).2.1,
        (deform_preserves _).2.2.1, (deform_preserves _).2.2.2.1,
        (deform_preserves _).2.2.2.2.1,
        (deform_preserves _).2.2.2.2.2.2.2.1,
        (deform_preserves _).2.2.2.2.2.2.2.2.1,
        (deform_preserves _).2.2.2.2.2.2.2.2.2⟩

/-- The dual-storage invariant of the Control Lattice: every working
control point is the image of the corresponding local control point
under the current transform. -/
def LatticeInv (st : FFDState) : Prop :=
  ∀ i, i < st.l + 1 → ∀ j, j < st.m + 1 → ∀ k, k < st.n + 1 →
    getCP st.controlPoints i j k
      = applyM4 st.currentTransform (getCP st.originalControlPoints i j k)

/-- Shape well-formedness of the three point sets (an implicit invariant
of the class: all three arrays are built with dimensions
(l+1) x (m+1) x (n+1) and only ever updated in place). -/
def LatticeWF (st : FFDState) : Prop :=
  Grid3WF st.controlPoints st.l st.m st.n ∧
  Grid3WF st.originalControlPoints st.l st.m st.n ∧
  Grid3WF st.initialControlPoints st.l st.m st.n

instance (st : FFDState) : Decidable (LatticeInv st) := by
  unfold LatticeInv; infer_instance

instance (cp : List (List (List Vec3))) (l m n : ℕ) :
    Decidable (Grid3WF cp l m n) := by
  unfold Grid3WF; infer_instance

instance (st : FFDState) : Decidable (LatticeWF st) := by
  unfold LatticeWF; infer_instance

theorem construct_wf_inv (ps : List Vec3) (s0 : FFDSettings) :
    LatticeWF (FFDState.construct ps s0) ∧ LatticeInv (FFDState.construct ps s0) := by
  constructor
  · exact ⟨grid3wf_initGrid _ _ _ _ _, grid3wf_initGrid _ _ _ _ _,
      grid3wf_initGrid _ _ _ _ _⟩
  · intro i hi j hj k hk
    exact (applyM4_id _).symm

theorem updateTransform_wf_inv (st : FFDState) (M : Mat4) (hwf : LatticeWF st) :
    LatticeWF (FFDState.updateTransform M st) ∧
      LatticeInv (FFDState.updateTransform M st) := by
  obtain ⟨hcp, hocp, hicp⟩ := hwf
  unfold FFDState.updateTransform
  have hd := deform_preserves ({ st with
    currentTransform := M
    controlPoints := st.originalControlPoints.map fun pl =>
      pl.map fun row => row.map (applyM4 M) })
  constructor
  · refine ⟨?_, ?_, ?_⟩
    · rw [hd.1, hd.2.1, hd.2.2.1, hd.2.2.2.2.2.1]
      exact grid3wf_map3 hocp _
    · rw [hd.1, hd.2.1, hd.2.2.1, hd.2.2.2.2.2.2.1]
      exact hocp
    · rw [hd.1, hd.2.1, hd.2.2.1, hd.2.2.2.2.2.2.2.1]
      exact hicp
  · intro i hi j hj k hk
    rw [hd.1] at hi
    rw [hd.2.1] at hj
    rw [hd.2.2.1] at hk
    rw [hd.2.2.2.2.2.1, hd.2.2.2.2.2.2.1, hd.2.2.2.2.2.2.2.2.2]
    exact getCP_map3 hocp _ hi hj hk

theorem moveControlPoint_wf_inv (st : FFDState) (i j k : ℕ) (p : Vec3)
    (hwf : LatticeWF st) (hinv : LatticeInv st)
    (haff : st.currentTransform.IsAffine)
    (hdet : Mat4.det st.currentTransform ≠ 0) :
    LatticeWF (FFDState.moveControlPoint i j k p st) ∧
      LatticeInv (FFDState.moveControlPoint i j k p st) := by
  obtain ⟨hcp, hocp, hicp⟩ := hwf
  unfold FFDState.moveControlPoint
  by_cases hg : i < st.controlPoints.length ∧
      j < (st.controlPoints.getD i []).length ∧
      k < ((st.controlPoints.getD i []).getD j []).length
  · rw [if_pos hg]
    have hi : i < st.l + 1 := by
      have := hcp.1; omega
    have hj : j < st.m + 1 := by
      have := (hcp.2 i hi).1; omega
    have hk : k < st.n + 1 := by
      have := (hcp.2 i hi).2 j hj; omega
    set lp := if st.currentTransform = Mat4.idM then p
      else applyM4 (Mat4.invert st.currentTransform) p with hlp
    have hd := deform_preserves ({ st with
      controlPoints := setCP st.controlPoints i j k p
      originalControlPoints := setCP st.originalControlPoints i j k lp })
    constructor
    · refine ⟨?_, ?_, ?_⟩
      · rw [hd.1, hd.2.1, hd.2.2.1, hd.2.2.2.2.2.1]
        exact grid3wf_setCP hcp _
      · rw [hd.1, hd.2.1, hd.2.2.1, hd.2.2.2.2.2.2.1]
        exact grid3wf_setCP hocp _
      · rw [hd.1, hd.2.1, hd.2.2.1, hd.2.2.2.2.2.2.2.1]
        exact hicp
    · intro i' hi' j' hj' k' hk'
      rw [hd.1] at hi'
      rw [hd.2.1] at hj'
      rw [hd.2.2.1] at hk'
      rw [hd.2.2.2.2.2.1, hd.2.2.2.2.2.2.1, hd.2.2.2.2.2.2.2.2.2]
      by_cases hsame : i' = i ∧ j' = j ∧ k' = k
      · obtain ⟨rfl, rfl, rfl⟩ := hsame
        rw [getCP_setCP_eq hcp _ hi' hj' hk', getCP_setCP_eq hocp _ hi' hj' hk']
        rw [hlp]
        by_cases hid : st.currentTransform = Mat4.idM
        · rw [if_pos hid, hid, applyM4_id]
        · rw [if_neg hid]
          exact (applyM4_invert_cancel _ haff hdet p).symm
      · rw [getCP_setCP_ne _ hsame, getCP_setCP_ne _ hsame]
        exact hinv i' hi' j' hj' k' hk'
  · rw [if_neg hg]
    exact ⟨⟨hcp, hocp, hicp⟩, hinv⟩

theorem reset_wf_inv (st : FFDState) (hwf : LatticeWF st) :
    LatticeWF (FFDState.reset st) ∧ LatticeInv (FFDState.reset st) := by
  obtain ⟨hcp, hocp, hicp⟩ := hwf
  unfold FFDState.reset
  have hd := deform_preserves ({ st with
    geomPositions := st.originalPositions
    controlPoints := st.initialControlPoints
    originalControlPoints := st.initialControlPoints
    currentTransform := Mat4.idM })
  constructor
  · refine ⟨?_, ?_, ?_⟩
    · rw [hd.1, hd.2.1, hd.2.2.1, hd.2.2.2.2.2.1]
      exact hicp
    · rw [hd.1, hd.2.1, hd.2.2.1, hd.2.2.2.2.2.2.1]
      exact hicp
    · rw [hd.1, hd.2.1, hd.2.2.1, hd.2.2.2.2.2.2.2.1]
      exact hicp
  · intro i hi j hj k hk
    rw [hd.2.2.2.2.2.1, hd.2.2.2.2.2.2.1, hd.2.2.2.2.2.2.2.2.2]
    exact (applyM4_id _).symm

/-! ### Claim theorems for the Control Lattice -/

theorem max2_ne_zero (x : ℕ) : max 2 x ≠ 0 := by omega

/-- C1 (amended): the dual-storage invariant working = transform(local)
holds after construction, after every updateTransform, after every
moveControlPoint performed while the current transform is an invertible
AFFINE matrix (last row 0,0,0,1 — the shape of every rigid/affine
placement the UI produces), and after every reset; moreover a sculpted
point's local position is exactly the inverse transform of the sculpted
world position.  The affinity restriction is forced by
c1_counterexample: for an invertible but projective transform the
homogeneous divide of THREE.Vector3.applyMatrix4 breaks the round trip. -/
theorem c1_dual_storage_invariant :
    (∀ ps s0, LatticeWF (FFDState.construct ps s0) ∧
      LatticeInv (FFDState.construct ps s0)) ∧
    (∀ st M, LatticeWF st →
      LatticeWF (FFDState.updateTransform M st) ∧
        LatticeInv (FFDState.updateTransform M st)) ∧
    (∀ st i j k p, LatticeWF st → LatticeInv st →
      st.currentTransform.IsAffine → Mat4.det st.currentTransform ≠ 0 →
      LatticeWF (FFDState.moveControlPoint i j k p st) ∧
        LatticeInv (FFDState.moveControlPoint i j k p st)) ∧
    (∀ st, LatticeWF st →
      LatticeWF (FFDState.reset st) ∧ LatticeInv (FFDState.reset st)) ∧
    (∀ st i j k p, LatticeWF st →
      i < st.l + 1 → j < st.m + 1 → k < st.n + 1 →
      getCP (FFDState.moveControlPoint i j k p st).originalControlPoints i j k
        = applyM4 (Mat4.invert st.currentTransform) p) := by
  refine ⟨construct_wf_inv,
    fun st M hwf => updateTransform_wf_inv st M hwf,
    fun st i j k p hwf hinv haff hdet =>
      moveControlPoint_wf_inv st i j k p hwf hinv haff hdet,
    fun st hwf => reset_wf_inv st hwf, ?_⟩
  intro st i j k p hwf hi hj hk
  obtain ⟨hcp, hocp, hicp⟩ := hwf
  unfold FFDState.moveControlPoint
  have hg : i < st.controlPoints.length ∧
      j < (st.controlPoints.getD i []).length ∧
      k < ((st.controlPoints.getD i []).getD j []).length := by
    have h1 := hcp.1
    have h2 := (hcp.2 i hi).1
    have h3 := (hcp.2 i hi).2 j hj
    exact ⟨by omega, by omega, by omega⟩
  rw [if_pos hg]
  have hd := deform_preserves ({ st with
    controlPoints := setCP st.controlPoints i j k p
    originalControlPoints := setCP st.originalControlPoints i j k
      (if st.currentTransform = Mat4.idM then p
        else applyM4 (Mat4.invert st.currentTransform) p) })
  rw [hd.2.2.2.2.2.2.1]
  rw [getCP_setCP_eq hocp _ hi hj hk]
  by_cases hid : st.currentTransform = Mat4.idM
  · rw [if_pos hid, hid, invert_id, applyM4_id]
  · rw [if_neg hid]

/-- The eight corners of the [-1,1] cube, a convenient concrete mesh. -/
def cubePs : List Vec3 :=
  [⟨-1,-1,-1⟩, ⟨1,-1,-1⟩, ⟨-1,1,-1⟩, ⟨1,1,-1⟩,
   ⟨-1,-1,1⟩, ⟨1,-1,1⟩, ⟨-1,1,1⟩, ⟨1,1,1⟩]

/-- An invertible but non-affine (projective) matrix: it swaps the x and
homogeneous w coordinates.  Its determinant is -1. -/
def projSwap : Mat4 := ⟨0,0,0,1, 0,1,0,0, 0,0,1,0, 1,0,0,0⟩

/-- An affine similarity: uniform scale by 2 plus a translation. -/
def affScale : Mat4 := ⟨2,0,0,3, 0,2,0,0, 0,0,2,0, 0,0,0,1⟩

def c1CexState : FFDState :=
  FFDState.moveControlPoint 0 0 0 ⟨0,1,0⟩
    (FFDState.updateTransform projSwap (FFDState.construct [⟨0,0,0⟩] ⟨2,2,2⟩))

/-- C1 counterexample: after updateTransform with the invertible
projective matrix projSwap and a sculpt of control point (0,0,0) to
(0,1,0), the working point differs from the transformed local point by a
full unit in y (in JavaScript the transformed local point is a NaN/Inf
vector, violating the equality just as badly), although the current
transform is invertible.  So invertibility alone does not sustain the
invariant; affinity is needed. -/
theorem c1_counterexample :
    Mat4.det c1CexState.currentTransform ≠ 0 ∧
    getCP c1CexState.controlPoints 0 0 0 = ⟨0, 1, 0⟩ ∧
    applyM4 c1CexState.currentTransform
      (getCP c1CexState.originalControlPoints 0 0 0) = ⟨0, 0, 0⟩ := by
  decide

def c1WitState : FFDState :=
  FFDState.updateTransform affScale (FFDState.construct cubePs ⟨2,2,2⟩)

theorem c1_witness :
    LatticeWF c1WitState ∧ LatticeInv c1WitState ∧
    c1WitState.currentTransform.IsAffine ∧
    Mat4.det c1WitState.currentTransform ≠ 0 ∧
    (LatticeWF (FFDState.moveControlPoint 1 0 2 ⟨9,9,9⟩ c1WitState) ∧
      LatticeInv (FFDState.moveControlPoint 1 0 2 ⟨9,9,9⟩ c1WitState)) :=
  ⟨by decide, by decide, by decide, by decide,
   c1_dual_storage_invariant.2.2.1 c1WitState 1 0 2 ⟨9,9,9⟩
     (by decide) (by decide) (by decide) (by decide)⟩

/-- C2: identity deform.  Constructing a lattice over any mesh and
calling deform immediately (no mutation, identity transform) reproduces
every vertex within the engine's own snapping tolerance: componentwise
the error is at most 1e-6 times the bounding-box extent of that axis
(and it is exactly zero unless the vertex lies within the 1e-6 clamp
window of the box boundary).  The renormalized Bernstein blend has
linear precision: the total weight is exactly 1 and the blend of the
fresh grid is an affine function of the parametric coordinates. -/
theorem c2_identity_deform (ps : List Vec3) (s0 : FFDSettings) :
    (FFDState.deform (FFDState.construct ps s0)).geomPositions.length = ps.length ∧
    ∀ i, i < ps.length →
      |((FFDState.deform (FFDState.construct ps s0)).geomPositions.getD i Vec3.zero).x -
          (ps.getD i Vec3.zero).x| ≤
        (1 / 1000000) * (FFDState.construct ps s0).bsize.x ∧
      |((FFDState.deform (FFDState.construct ps s0)).geomPositions.getD i Vec3.zero).y -
          (ps.getD i Vec3.zero).y| ≤
        (1 / 1000000) * (FFDState.construct ps s0).bsize.y ∧
      |((FFDState.deform (FFDState.construct ps s0)).geomPositions.getD i Vec3.zero).z -
          (ps.getD i Vec3.zero).z| ≤
        (1 / 1000000) * (FFDState.construct ps s0).bsize.z :=
  deform_close_core (FFDState.construct ps s0) ps rfl rfl rfl rfl rfl
    (max2_ne_zero _) (max2_ne_zero _) (max2_ne_zero _)

theorem c2_witness :
    0 < cubePs.length ∧
    (|((FFDState.deform (FFDState.construct cubePs ⟨2,2,2⟩)).geomPositions.getD 0
          Vec3.zero).x - (cubePs.getD 0 Vec3.zero).x| ≤
        (1 / 1000000) * (FFDState.construct cubePs ⟨2,2,2⟩).bsize.x ∧
      |((FFDState.deform (FFDState.construct cubePs ⟨2,2,2⟩)).geomPositions.getD 0
          Vec3.zero).y - (cubePs.getD 0 Vec3.zero).y| ≤
        (1 / 1000000) * (FFDState.construct cubePs ⟨2,2,2⟩).bsize.y ∧
      |((FFDState.deform (FFDState.construct cubePs ⟨2,2,2⟩)).geomPositions.getD 0
          Vec3.zero).z - (cubePs.getD 0 Vec3.zero).z| ≤
        (1 / 1000000) * (FFDState.construct cubePs ⟨2,2,2⟩).bsize.z) :=
  ⟨by decide, (c2_identity_deform cubePs ⟨2,2,2⟩).2 0 (by decide)⟩

/-- A sequence of moveControlPoint calls, applied in order. -/
def applyMoves (ms : List (ℕ × ℕ × ℕ × Vec3)) (st : FFDState) : FFDState :=
  ms.foldl (fun s mv => FFDState.moveControlPoint mv.1 mv.2.1 mv.2.2.1 mv.2.2.2 s) st

theorem applyMoves_preserves (ms : List (ℕ × ℕ × ℕ × Vec3)) (st : FFDState) :
    (applyMoves ms st).l = st.l ∧ (applyMoves ms st).m = st.m ∧
    (applyMoves ms st).n = st.n ∧ (applyMoves ms st).bmin = st.bmin ∧
    (applyMoves ms st).bsize = st.bsize ∧
    (applyMoves ms st).initialControlPoints = st.initialControlPoints ∧
    (applyMoves ms st).originalPositions = st.originalPositions := by
  induction ms generalizing st with
  | nil => exact ⟨rfl, rfl, rfl, rfl, rfl, rfl, rfl⟩
  | cons mv t ih =>
    have hm := move_preserves mv.1 mv.2.1 mv.2.2.1 mv.2.2.2 st
    have ht := ih (FFDState.moveControlPoint mv.1 mv.2.1 mv.2.2.1 mv.2.2.2 st)
    exact ⟨ht.1.trans hm.1, ht.2.1.trans hm.2.1, ht.2.2.1.trans hm.2.2.1,
      ht.2.2.2.1.trans hm.2.2.2.1, ht.2.2.2.2.1.trans hm.2.2.2.2.1,
      ht.2.2.2.2.2.1.trans hm.2.2.2.2.2.1,
      ht.2.2.2.2.2.2.trans hm.2.2.2.2.2.2.1⟩

/-- C3 (amended): for every mesh and every finite sequence of
moveControlPoint calls, reset restores both control-point sets from the
immutable initial snapshot and resets the current transform to the
identity, exactly; the vertex buffer is restored to the cached
pre-sculpt originals and then re-deformed, which reproduces the
originals within the engine's clamp tolerance (componentwise error at
most 1e-6 times the bounding-box extent), but not exactly in general:
the final deform call re-snaps parametric coordinates lying within 1e-6
of the box boundary, as c3_counterexample shows. -/
theorem c3_reset_roundtrip (ps : List Vec3) (s0 : FFDSettings)
    (ms : List (ℕ × ℕ × ℕ × Vec3)) :
    (FFDState.reset (applyMoves ms (FFDState.construct ps s0))).controlPoints
        = (FFDState.construct ps s0).initialControlPoints ∧
    (FFDState.reset (applyMoves ms (FFDState.construct ps s0))).originalControlPoints
        = (FFDState.construct ps s0).initialControlPoints ∧
    (FFDState.reset (applyMoves ms (FFDState.construct ps s0))).currentTransform
        = Mat4.idM ∧
    (FFDState.reset (applyMoves ms (FFDState.construct ps s0))).geomPositions.length
        = ps.length ∧
    ∀ i, i < ps.length →
      |((FFDState.reset (applyMoves ms (FFDState.construct ps s0))).geomPositions.getD
          i Vec3.zero).x - (ps.getD i Vec3.zero).x| ≤
        (1 / 1000000) * (FFDState.construct ps s0).bsize.x ∧
      |((FFDState.reset (applyMoves ms (FFDState.construct ps s0))).geomPositions.getD
          i Vec3.zero).y - (ps.getD i Vec3.zero).y| ≤
        (1 / 1000000) * (FFDState.construct ps s0).bsize.y ∧
      |((FFDState.reset (applyMoves ms (FFDState.construct ps s0))).geomPositions.getD
          i Vec3.zero).z - (ps.getD i Vec3.zero).z| ≤
        (1 / 1000000) * (FFDState.construct ps s0).bsize.z := by
  have hp := applyMoves_preserves ms (FFDState.construct ps s0)
  set st0 := applyMoves ms (FFDState.construct ps s0) with hst0
  have hl : st0.l = max 2 s0.lengthSubdivisions := hp.1
  have hm : st0.m = max 2 s0.heightSubdivisions := hp.2.1
  have hn : st0.n = max 2 s0.widthSubdivisions := hp.2.2.1
  have hbmin : st0.bmin = bboxMin ps := hp.2.2.2.1
  have hbsize : st0.bsize = Vec3.sub (bboxMax ps) (bboxMin ps) := hp.2.2.2.2.1
  have hicp : st0.initialControlPoints =
      initGrid (bboxMin ps) (Vec3.sub (bboxMax ps) (bboxMin ps))
        (max 2 s0.lengthSubdivisions) (max 2 s0.heightSubdivisions)
        (max 2 s0.widthSubdivisions) := hp.2.2.2.2.2.1
  have horig : st0.originalPositions = ps := hp.2.2.2.2.2.2
  unfold FFDState.reset
  have hd := deform_preserves ({ st0 with
    geomPositions := st0.originalPositions
    controlPoints := st0.initialControlPoints
    originalControlPoints := st0.initialControlPoints
    currentTransform := Mat4.idM })
  refine ⟨?_, ?_, ?_, ?_, ?_⟩
  · rw [hd.2.2.2.2.2.1]
    exact hicp
  · rw [hd.2.2.2.2.2.2.1]
    exact hicp
  · exact hd.2.2.2.2.2.2.2.2.2
  · exact (deform_close_core ({ st0 with
        geomPositions := st0.originalPositions
        controlPoints := st0.initialControlPoints
        originalControlPoints := st0.initialControlPoints
        currentTransform := Mat4.idM }) ps
      (by show st0.initialControlPoints
            = initGrid st0.bmin st0.bsize st0.l st0.m st0.n
          rw [hicp, hbmin, hbsize, hl, hm, hn])
      rfl horig hbmin hbsize
      (by rw [hl]; exact max2_ne_zero _)
      (by rw [hm]; exact max2_ne_zero _)
      (by rw [hn]; exact max2_ne_zero _)).1
  · have hcore := (deform_close_core ({ st0 with
        geomPositions := st0.originalPositions
        controlPoints := st0.initialControlPoints
        originalControlPoints := st0.initialControlPoints
        currentTransform := Mat4.idM }) ps
      (by show st0.initialControlPoints
            = initGrid st0.bmin st0.bsize st0.l st0.m st0.n
          rw [hicp, hbmin, hbsize, hl, hm, hn])
      rfl horig hbmin hbsize
      (by rw [hl]; exact max2_ne_zero _)
      (by rw [hm]; exact max2_ne_zero _)
      (by rw [hn]; exact max2_ne_zero _)).2
    intro i hi
    have h2 := hcore i hi
    dsimp only at h2
    rw [← hp.2.2.2.2.1]
    exact h2

/-- A mesh with a vertex whose x parametric coordinate (5e-7) lies
strictly inside the deform clamp window (0, 1e-6). -/
def clampMesh : List Vec3 := [⟨0,0,0⟩, ⟨1/2000000,0,0⟩, ⟨1,0,0⟩]

set_option maxRecDepth 8000

/-- C3 counterexample: with no sculpting at all, reset does NOT restore
the vertex buffer exactly: the final re-deform snaps the second vertex
(x = 5e-7, inside the 1e-6 clamp window) to the box face, so the stored
positions differ from the cached originals.  The same snap happens in
floating-point JavaScript. -/
theorem c3_counterexample :
    (FFDState.reset (FFDState.construct clampMesh ⟨2,2,2⟩)).geomPositions
      ≠ (FFDState.construct clampMesh ⟨2,2,2⟩).originalPositions := by
  decide

theorem c3_witness :
    0 < cubePs.length ∧
    (|((FFDState.reset (applyMoves [(0,0,0,⟨5,5,5⟩)]
          (FFDState.construct cubePs ⟨2,2,2⟩))).geomPositions.getD 0 Vec3.zero).x -
        (cubePs.getD 0 Vec3.zero).x| ≤
      (1 / 1000000) * (FFDState.construct cubePs ⟨2,2,2⟩).bsize.x ∧
     |((FFDState.reset (applyMoves [(0,0,0,⟨5,5,5⟩)]
          (FFDState.construct cubePs ⟨2,2,2⟩))).geomPositions.getD 0 Vec3.zero).y -
        (cubePs.getD 0 Vec3.zero).y| ≤
      (1 / 1000000) * (FFDState.construct cubePs ⟨2,2,2⟩).bsize.y ∧
     |((FFDState.reset (applyMoves [(0,0,0,⟨5,5,5⟩)]
          (FFDState.construct cubePs ⟨2,2,2⟩))).geomPositions.getD 0 Vec3.zero).z -
        (cubePs.getD 0 Vec3.zero).z| ≤
      (1 / 1000000) * (FFDState.construct cubePs ⟨2,2,2⟩).bsize.z) :=
  ⟨by decide,
   (c3_reset_roundtrip cubePs ⟨2,2,2⟩ [(0,0,0,⟨5,5,5⟩)]).2.2.2.2 0 (by decide)⟩

/-- Total number of control points actually stored in the nested grid. -/
def gridTotal (st : FFDState) : ℕ :=
  (st.controlPoints.map (fun pl => (pl.map List.length).sum)).sum

/-- C7 counterexample: requesting subdivision counts (1,1,1) does not
build a 2 x 2 x 2 grid: the constructor clamps each count up to 2
(Math.max(2, settings.X || 2)), so the grid holds 27 points, not 8. -/
theorem c7_counterexample :
    gridTotal (FFDState.construct cubePs ⟨1,1,1⟩) = 27 ∧
    (1 + 1) * ((1 + 1) * (1 + 1)) = 8 ∧ 27 ≠ 8 := by
  decide

theorem gridTotal_construct (ps : List Vec3) (s0 : FFDSettings) :
    gridTotal (FFDState.construct ps s0) =
      (max 2 s0.lengthSubdivisions + 1) *
        ((max 2 s0.heightSubdivisions + 1) * (max 2 s0.widthSubdivisions + 1)) := by
  show ((initGrid _ _ _ _ _).map (fun pl => (pl.map List.length).sum)).sum = _
  unfold initGrid
  simp [List.map_map, Function.comp_def, List.map_const', List.sum_replicate,
    Nat.smul_one_eq_cast]

/-- C7 (amended): for per-axis subdivision counts at least 2 the
constructor keeps them as requested (it clamps anything smaller up to
2), builds exactly (l+1)(m+1)(n+1) local control points, places point
(i,j,k) at bboxMin + (i*size.x/l, j*size.y/m, k*size.z/n) evenly across
the mesh bounding box, and imposes no upper bound on l, m, n (the
statement quantifies over all such counts). -/
theorem c7_lattice_construction (ps : List Vec3) (a b c : ℕ)
    (ha : 2 ≤ a) (hb : 2 ≤ b) (hc : 2 ≤ c) :
    (FFDState.construct ps ⟨a, b, c⟩).l = a ∧
    (FFDState.construct ps ⟨a, b, c⟩).m = b ∧
    (FFDState.construct ps ⟨a, b, c⟩).n = c ∧
    gridTotal (FFDState.construct ps ⟨a, b, c⟩) = (a + 1) * ((b + 1) * (c + 1)) ∧
    ∀ i, i < a + 1 → ∀ j, j < b + 1 → ∀ k, k < c + 1 →
      getCP (FFDState.construct ps ⟨a, b, c⟩).controlPoints i j k =
        ⟨(bboxMin ps).x + (i : ℚ) *
            (((bboxMax ps).x - (bboxMin ps).x) / (a : ℚ)),
         (bboxMin ps).y + (j : ℚ) *
            (((bboxMax ps).y - (bboxMin ps).y) / (b : ℚ)),
         (bboxMin ps).z + (k : ℚ) *
            (((bboxMax ps).z - (bboxMin ps).z) / (c : ℚ))⟩ := by
  have hla : max 2 a = a := max_eq_right ha
  have hlb : max 2 b = b := max_eq_right hb
  have hlc : max 2 c = c := max_eq_right hc
  refine ⟨hla, hlb, hlc, ?_, ?_⟩
  · rw [gridTotal_construct]
    simp only [hla, hlb, hlc]
  · intro i hi j hj k hk
    show getCP (initGrid (bboxMin ps) (Vec3.sub (bboxMax ps) (bboxMin ps))
      (max 2 a) (max 2 b) (max 2 c)) i j k = _
    rw [hla, hlb, hlc]
    rw [getCP_initGrid hi hj hk]
    rfl

theorem c7_witness :
    2 ≤ 5 ∧ 2 ≤ 3 ∧ 2 ≤ 4 ∧
    (gridTotal (FFDState.construct cubePs ⟨5, 3, 4⟩) = (5 + 1) * ((3 + 1) * (4 + 1))) :=
  ⟨by decide, by decide, by decide,
   (c7_lattice_construction cubePs 5 3 4 (by decide) (by decide) (by decide)).2.2.2.1⟩

/-- Failure kinds observable from the constructor.  The source defines
no InvalidGeometry error anywhere; reading
geometry.attributes.position.array on a geometry without position data
throws a plain TypeError (property access on undefined). -/
inductive JsErrorKind where
  | typeError
  | invalidGeometry
  deriving DecidableEq, Repr

/-- The FFD constructor as seen by a caller, with the presence of
position data made explicit: a geometry without a position attribute
makes the very first array access throw a generic TypeError. -/
def constructE (pos : Option (List Vec3)) (s0 : FFDSettings) :
    Except JsErrorKind FFDState :=
  match pos with
  | none => .error .typeError
  | some ps => .ok (FFDState.construct ps s0)

/-- C10 counterexample: constructing over a mesh with no position data
does fail, but with a generic TypeError, not with a distinguishable
InvalidGeometry kind — no such kind exists in the code. -/
theorem c10_counterexample :
    constructE none ⟨2,2,2⟩ = .error .typeError ∧
    constructE none ⟨2,2,2⟩ ≠ .error .invalidGeometry := by
  refine ⟨rfl, ?_⟩
  intro h
  cases h

/-- C10 (amended): construction over a mesh with no position data throws
the generic TypeError produced by accessing the missing attribute (the
code defines no InvalidGeometry error kind), and construction over any
mesh that has position data always succeeds — so the generic
construction-time exception is the only failure a caller must handle. -/
theorem c10_construction_failure :
    (∀ s0, constructE none s0 = .error JsErrorKind.typeError) ∧
    (∀ ps s0, constructE (some ps) s0 = .ok (FFDState.construct ps s0)) :=
  ⟨fun _ => rfl, fun _ _ => rfl⟩

/-! ## The seam-repair pipeline (smoothSeam and helpers) -/

/-- A mesh buffer: a vertex position list and an optional index list
(absence means every 3 consecutive vertices form a triangle).  Normals
and other attributes are not modelled; the pipeline strips them at entry
and recomputes normals at exit. -/
structure Geo where
  positions : List Vec3
  index : Option (List ℕ)
  deriving DecidableEq, Repr

/-- Smoothing options (defaults already merged in by the caller, as the
source spread of DEFAULT_OPTIONS does). -/
structure SmoothingOptions where
  strength : ℚ
  iterations : ℕ
  radius : ℚ
  deriving DecidableEq, Repr

/-- Read a vertex, defaulting out of range (where the JS typed-array
read would yield undefined). -/
def pget (ps : List Vec3) (i : ℕ) : Vec3 := ps.getD i Vec3.zero

/-- Group a flat index list into faces of 3 (the pipeline maintains a
length divisible by 3; a ragged tail would be read as NaN by the JS). -/
def triples : List ℕ → List (ℕ × ℕ × ℕ)
  | a :: b :: c :: rest => (a, b, c) :: triples rest
  | _ => []

/-- Undirected edge key, mirroring the string key min + sep + max. -/
def okey (a b : ℕ) : ℕ × ℕ := (min a b, max a b)

/-- Insertion-ordered set insert (JS Set.add). -/
def oinsert {κ : Type} [DecidableEq κ] (l : List κ) (x : κ) : List κ :=
  if x ∈ l then l else l ++ [x]

/-- Insertion-ordered map get (JS Map.get). -/
def aget {κ ν : Type} [DecidableEq κ] (m : List (κ × ν)) (k : κ) : Option ν :=
  (m.find? (fun e => decide (e.1 = k))).map (fun e => e.2)

/-- Insertion-ordered map set (JS Map.set: in-place update of an
existing key keeps its position; a new key is appended). -/
def aset {κ ν : Type} [DecidableEq κ] : List (κ × ν) → κ → ν → List (κ × ν)
  | [], k, v => [(k, v)]
  | (k', v') :: rest, k, v =>
    if k' = k then (k, v) :: rest else (k', v') :: aset rest k v

/-- JavaScript double-tilde truncation toward zero. -/
def jsTrunc (q : ℚ) : ℤ := if 0 ≤ q then ⌊q⌋ else -⌊-q⌋

/-- Integer Newton square root with explicit fuel (used only inside the
concrete stand-in for Math.sqrt below; 70 iterations far exceed what any
value occurring in this file needs). -/
def nsqrtGo (n : ℕ) : ℕ → ℕ → ℕ
  | 0, x => x
  | fuel + 1, x =>
    let y := (x + n / x) / 2
    if x ≤ y then x else nsqrtGo n fuel y

def nsqrt (n : ℕ) : ℕ := if n = 0 then 0 else nsqrtGo n 70 n

/-- A concrete interpretation of Math.sqrt used in witnesses and
counterexamples: the floor square root at 6 fixed decimal digits.  It is
exact on perfect squares of the 1e-6 grid; all comparisons reached in
the concrete runs below are far from their thresholds, so the JS floats
decide them identically. -/
def sqA (x : ℚ) : ℚ :=
  if x ≤ 0 then 0 else (nsqrt (Int.toNat ⌊x * 1000000000000⌋) : ℚ) / 1000000

/-- Bounding-box maximum extent of a vertex list (Math.max of the three
axis extents of the bounding box). -/
def meshScaleOf (ps : List Vec3) : ℚ :=
  max ((bboxMax ps).x - (bboxMin ps).x)
    (max ((bboxMax ps).y - (bboxMin ps).y) ((bboxMax ps).z - (bboxMin ps).z))

/-- Hash key of mergeVertices: each coordinate scaled by the shift
multiplier and truncated.  THREE computes the multiplier as
10^(log10(1/tolerance)) in floats; in exact arithmetic that is
1/tolerance. -/
def mergeKey (mult : ℚ) (v : Vec3) : ℤ × ℤ × ℤ :=
  (jsTrunc (v.x * mult), jsTrunc (v.y * mult), jsTrunc (v.z * mult))

/-- Modelled from the three.js library: BufferGeometryUtils.mergeVertices
on a position-only geometry.  Iterates the source indices (or the
sequential vertex order when no index exists), keeps the first vertex of
every hash bucket, and remaps indices; the output is always indexed. -/
def mergeGo (ps : List Vec3) (mult : ℚ) :
    List ℕ → List ((ℤ × ℤ × ℤ) × ℕ) → List Vec3 → List Vec3 × List ℕ
  | [], _, acc => (acc, [])
  | i :: rest, hmap, acc =>
    let v := pget ps i
    let key := mergeKey mult v
    match aget hmap key with
    | some j =>
      let r := mergeGo ps mult rest hmap acc
      (r.1, j :: r.2)
    | none =>
      let j := acc.length
      let r := mergeGo ps mult rest (aset hmap key j) (acc ++ [v])
      (r.1, j :: r.2)

def mergeVertices (g : Geo) (tolerance : ℚ) : List Vec3 × List ℕ :=
  let tol := max tolerance (1 / 4503599627370496)
  let mult := 1 / tol
  let src := match g.index with
    | some ix => ix
    | none => List.range g.positions.length
  mergeGo g.positions mult src [] []

/-- Per-edge face counts of the current index buffer, in first-seen
order (the basis of every boundary-edge computation). -/
def edgeFaceCounts (idx : List ℕ) : List ((ℕ × ℕ) × ℕ) :=
  (triples idx).foldl
    (fun m f =>
      let m1 := aset m (okey f.1 f.2.1) ((aget m (okey f.1 f.2.1)).getD 0 + 1)
      let m2 := aset m1 (okey f.2.1 f.2.2) ((aget m1 (okey f.2.1 f.2.2)).getD 0 + 1)
      aset m2 (okey f.2.2 f.1) ((aget m2 (okey f.2.2 f.1)).getD 0 + 1))
    []

/-- The boundary vertices (each endpoint of an edge with face count 1),
in the discovery order of the source loop. -/
def boundaryVertsOf (efc : List ((ℕ × ℕ) × ℕ)) : List ℕ :=
  efc.foldl
    (fun bv e =>
      if e.2 = 1 then oinsert (oinsert bv e.1.1) e.1.2 else bv)
    []

/-! Union-find with path compression over an insertion-ordered parent
map, mirroring the closures inside weldBoundaryVertices. -/

/-- One run of the find loop: compress the current node one step and
advance to its (new) parent, with explicit fuel standing in for the
while loop. -/
def ufFindGo : ℕ → List (ℕ × ℕ) → ℕ → ℕ × List (ℕ × ℕ)
  | 0, p, x => (x, p)
  | fuel + 1, p, x =>
    match aget p x with
    | none => (x, aset p x x)
    | some y =>
      if y = x then (x, p)
      else
        let g := (aget p y).getD y
        ufFindGo fuel (aset p x g) g

/-- find(x): ensure membership, then chase parents with compression.
The fuel map-size plus two suffices for any forest (proved below). -/
def ufFind (p : List (ℕ × ℕ)) (x : ℕ) : ℕ × List (ℕ × ℕ) :=
  ufFindGo (p.length + 2) p x

/-- union(a,b): link the root of b under the root of a. -/
def ufUnion (p : List (ℕ × ℕ)) (a b : ℕ) : List (ℕ × ℕ) :=
  let ra := ufFind p a
  let rb := ufFind ra.2 b
  if ra.1 = rb.1 then rb.2 else aset rb.2 rb.1 ra.1

/-- The inner j-loop of the weld merge phase for a fixed vi. -/
def weldInner (ps : List Vec3) (tolSq : ℚ) (vi : ℕ) :
    List ℕ → List (ℕ × ℕ) → ℕ → List (ℕ × ℕ) × ℕ
  | [], p, cnt => (p, cnt)
  | vj :: rest, p, cnt =>
    let ra := ufFind p vi
    let rb := ufFind ra.2 vj
    if ra.1 = rb.1 then weldInner ps tolSq vi rest rb.2 cnt
    else
      let dx := (pget ps vi).x - (pget ps vj).x
      let dy := (pget ps vi).y - (pget ps vj).y
      let dz := (pget ps vi).z - (pget ps vj).z
      if dx * dx + dy * dy + dz * dz < tolSq then
        weldInner ps tolSq vi rest (ufUnion rb.2 vi vj) (cnt + 1)
      else
        weldInner ps tolSq vi rest rb.2 cnt

/-- The outer i-loop of the weld merge phase (each vi paired with the
strictly later entries of the boundary list). -/
def weldOuter (ps : List Vec3) (tolSq : ℚ) :
    List ℕ → List (ℕ × ℕ) → ℕ → List (ℕ × ℕ) × ℕ
  | [], p, cnt => (p, cnt)
  | vi :: rest, p, cnt =>
    let r := weldInner ps tolSq vi rest p cnt
    weldOuter ps tolSq rest r.1 r.2

/-- weldBoundaryVertices: find boundary vertices, union-find-merge the
pairs within tolerance, and replace every boundary index by its root.
Returns the new index list and whether any merge happened; the position
array is left untouched (so the vertex count does not shrink here). -/
def weldBoundaryVertices (ps : List Vec3) (idx : List ℕ) (tolerance : ℚ) :
    List ℕ × Bool :=
  let efc := edgeFaceCounts idx
  let bv := boundaryVertsOf efc
  if bv = [] then (idx, false)
  else
    let r := weldOuter ps (tolerance * tolerance) bv [] 0
    if r.2 = 0 then (idx, false)
    else
      let rewrite := idx.foldl
        (fun (st : List ℕ × List (ℕ × ℕ)) e =>
          if e ∈ bv then
            let f := ufFind st.2 e
            (st.1 ++ [f.1], f.2)
          else (st.1 ++ [e], st.2))
        ([], r.1)
      (rewrite.1, true)

/-- removeDegenerateFaces: drop faces with a repeated index and faces
whose sorted index triple was already seen. -/
def removeDegenerateFaces (idx : List ℕ) : List ℕ :=
  let r := (triples idx).foldl
    (fun (st : List ℕ × List (ℕ × ℕ × ℕ)) f =>
      let a := f.1
      let b := f.2.1
      let c := f.2.2
      if a = b ∨ b = c ∨ a = c then st
      else
        let s0 := min a (min b c)
        let s2 := max a (max b c)
        let s1 := a + b + c - s0 - s2
        if (s0, s1, s2) ∈ st.2 then st
        else (st.1 ++ [a, b, c], st.2 ++ [(s0, s1, s2)]))
    ([], [])
  r.1

/-- The 3-pass weld loop of steps 1b and 4b: weld, stop when no merge
happened, otherwise remove degenerate faces and repeat. -/
def weldLoop (ps : List Vec3) (tol : ℚ) : ℕ → List ℕ → List ℕ
  | 0, idx => idx
  | pass + 1, idx =>
    let r := weldBoundaryVertices ps idx tol
    if r.2 = false then idx
    else weldLoop ps tol pass (removeDegenerateFaces r.1)

/-! ### Seam detection -/

/-- THREE.Vector3.normalize: divide by length, or by 1 when the length
is zero.  The length itself goes through the square-root parameter. -/
def vnormalize (sq : ℚ → ℚ) (v : Vec3) : Vec3 :=
  let len := sq (Vec3.dot v v)
  Vec3.divScalar v (if len = 0 then 1 else len)

/-- Per-face normals (normalized cross products, in face order). -/
def faceNormalsOf (sq : ℚ → ℚ) (ps : List Vec3) (idx : List ℕ) : List Vec3 :=
  (triples idx).map fun f =>
    vnormalize sq
      (Vec3.cross (Vec3.sub (pget ps f.2.1) (pget ps f.1))
        (Vec3.sub (pget ps f.2.2) (pget ps f.1)))

/-- Edge map of findSeamVertices: for every undirected edge the list of
adjacent face indices, built in face order. -/
def edgeFacesOf (idx : List ℕ) : List ((ℕ × ℕ) × List ℕ)  :=
  ((triples idx).enum.foldl
    (fun m fi =>
      let f := fi.2
      let m1 := aset m (okey f.1 f.2.1) ((aget m (okey f.1 f.2.1)).getD [] ++ [fi.1])
      let m2 := aset m1 (okey f.2.1 f.2.2)
        ((aget m1 (okey f.2.1 f.2.2)).getD [] ++ [fi.1])
      aset m2 (okey f.2.2 f.1) ((aget m2 (okey f.2.2 f.1)).getD [] ++ [fi.1]))
    [])

/-- Rational stand-in for cos of the 25-degree dihedral threshold.  The
source tests Math.acos(clamp(dot,-1,1)) > 25*pi/180, which for the
monotone acos is equivalent to dot < cos(25 degrees) =
0.906307787036650...; every dot product compared against it in the
concrete runs of this file is 0 or +-1, far from the threshold, so the
rational approximation decides exactly as the floats do. -/
def cos25 : ℚ := 906307787036650 / 1000000000000000

/-- The sharp-vertex pass: boundary edges (face count not 2) and edges
whose dihedral angle exceeds 25 degrees mark both endpoints sharp. -/
def sharpVertsOf (sq : ℚ → ℚ) (ps : List Vec3) (idx : List ℕ) : List ℕ :=
  let fns := faceNormalsOf sq ps idx
  (edgeFacesOf idx).foldl
    (fun sv e =>
      match e.2 with
      | [f0, f1] =>
        let d := min (max (Vec3.dot (fns.getD f0 Vec3.zero) (fns.getD f1 Vec3.zero))
          (-1)) 1
        if d < cos25 then oinsert (oinsert sv e.1.1) e.1.2 else sv
      | _ => oinsert (oinsert sv e.1.1) e.1.2)
    []

/-- Triangle list of the tool geometry (indexed or soup). -/
def buildTriangleList (g : Geo) : List (Vec3 × Vec3 × Vec3) :=
  match g.index with
  | some ix => (triples ix).map fun f =>
      (pget g.positions f.1, pget g.positions f.2.1, pget g.positions f.2.2)
  | none => (triples (List.range g.positions.length)).map fun f =>
      (pget g.positions f.1, pget g.positions f.2.1, pget g.positions f.2.2)

/-- Closest point on a triangle (the standard Ericson routine the source
ports; pure rational arithmetic). -/
def closestPtOnTri (p a b c : Vec3) : Vec3 :=
  let ab := Vec3.sub b a
  let ac := Vec3.sub c a
  let ap := Vec3.sub p a
  let d1 := Vec3.dot ab ap
  let d2 := Vec3.dot ac ap
  if d1 ≤ 0 ∧ d2 ≤ 0 then a else
  let bp := Vec3.sub p b
  let d3 := Vec3.dot ab bp
  let d4 := Vec3.dot ac bp
  if 0 ≤ d3 ∧ d4 ≤ d3 then b else
  let cp := Vec3.sub p c
  let d5 := Vec3.dot ab cp
  let d6 := Vec3.dot ac cp
  if 0 ≤ d6 ∧ d5 ≤ d6 then c else
  let vc := d1 * d4 - d3 * d2
  if vc ≤ 0 ∧ 0 ≤ d1 ∧ d3 ≤ 0 then
    Vec3.add a (Vec3.smul (d1 / (d1 - d3)) ab) else
  let vb := d5 * d2 - d1 * d6
  if vb ≤ 0 ∧ 0 ≤ d2 ∧ d6 ≤ 0 then
    Vec3.add a (Vec3.smul (d2 / (d2 - d6)) ac) else
  let va := d3 * d6 - d5 * d4
  if va ≤ 0 ∧ 0 ≤ d4 - d3 ∧ 0 ≤ d5 - d6 then
    Vec3.add b (Vec3.smul ((d4 - d3) / ((d4 - d3) + (d5 - d6))) (Vec3.sub c b))
  else
    let den := 1 / (va + vb + vc)
    Vec3.add (Vec3.add a (Vec3.smul (vb * den) ab)) (Vec3.smul (vc * den) ac)

def pointNearAnyTriangle (p : Vec3) (tris : List (Vec3 × Vec3 × Vec3))
    (tol : ℚ) : Bool :=
  tris.any fun t =>
    Vec3.distSq (closestPtOnTri p t.1 t.2.1 t.2.2) p ≤ tol * tol

/-- Axis-aligned box as a min/max pair; none models the empty THREE.Box3
(which contains no point). -/
def bboxOf (ps : List Vec3) : Option (Vec3 × Vec3) :=
  match ps with
  | [] => none
  | _ => some (bboxMin ps, bboxMax ps)

def boxExpand (b : Option (Vec3 × Vec3)) (s : ℚ) : Option (Vec3 × Vec3) :=
  b.map fun mm =>
    (⟨mm.1.x - s, mm.1.y - s, mm.1.z - s⟩, ⟨mm.2.x + s, mm.2.y + s, mm.2.z + s⟩)

def boxContains (b : Option (Vec3 × Vec3)) (p : Vec3) : Bool :=
  match b with
  | none => false
  | some mm =>
    mm.1.x ≤ p.x ∧ p.x ≤ mm.2.x ∧ mm.1.y ≤ p.y ∧ p.y ≤ mm.2.y ∧
      mm.1.z ≤ p.z ∧ p.z ≤ mm.2.z

/-- findSeamVertices: sharp vertices filtered to those near the tool
surface, falling back to the unfiltered sharp set when the filter leaves
nothing. -/
def findSeamVertices (sq : ℚ → ℚ) (ps : List Vec3) (idx : List ℕ)
    (tool : Geo) : List ℕ :=
  let sharp := sharpVertsOf sq ps idx
  if sharp = [] then []
  else
    let toolTris := buildTriangleList tool
    let toolBox := boxExpand (bboxOf tool.positions) (3 / 100)
    let seam := sharp.foldl
      (fun sv vi =>
        if boxContains toolBox (pget ps vi) then
          if pointNearAnyTriangle (pget ps vi) toolTris (15 / 1000) then
            oinsert sv vi
          else sv
        else sv)
      []
    if seam.length > 0 then seam else sharp

/-- collectSeamEdgeSegments: one segment per undirected face edge whose
endpoints are both seam vertices. -/
def collectSeamEdgeSegments (ps : List Vec3) (idx : List ℕ)
    (seam : List ℕ) : List (Vec3 × Vec3) :=
  let r := (triples idx).foldl
    (fun (st : List (ℕ × ℕ) × List (Vec3 × Vec3)) f =>
      let step := fun (st : List (ℕ × ℕ) × List (Vec3 × Vec3)) (a b : ℕ) =>
        if a ∈ seam ∧ b ∈ seam then
          if okey a b ∈ st.1 then st
          else (st.1 ++ [okey a b], st.2 ++ [(pget ps a, pget ps b)])
        else st
      step (step (step st f.1 f.2.1) f.2.1 f.2.2) f.2.2 f.1)
    ([], [])
  r.2

/-! ### Distance field, weights, Laplacian -/

/-- pointToSegmentDistance, with the final square root abstracted. -/
def segDist (sq : ℚ → ℚ) (p : Vec3) (s : Vec3 × Vec3) : ℚ :=
  let ab := Vec3.sub s.2 s.1
  let ap := Vec3.sub p s.1
  let abLenSq := Vec3.dot ab ab
  if abLenSq < 1 / 1000000000000 then sq (Vec3.dot ap ap)
  else
    let t := max 0 (min 1 (Vec3.dot ap ab / abLenSq))
    let c := Vec3.sub (Vec3.add s.1 (Vec3.smul t ab)) p
    sq (Vec3.dot c c)

/-- The per-vertex minimum-distance loop with its early exit below 1e-8
(the stored value is then the prefix minimum at the break point). -/
def minSegDist (sq : ℚ → ℚ) (p : Vec3) :
    List (Vec3 × Vec3) → Option ℚ → Option ℚ
  | [], acc => acc
  | s :: rest, acc =>
    let d := segDist sq p s
    let m := match acc with
      | none => d
      | some m0 => if d < m0 then d else m0
    if m < 1 / 100000000 then some m
    else minSegDist sq p rest (some m)

/-- computeDistanceField: none models the Infinity entries (vertices
rejected by the expanded segment bounding box, or an empty segment
list). -/
def computeDistanceField (sq : ℚ → ℚ) (ps : List Vec3)
    (segs : List (Vec3 × Vec3)) (maxDistance : ℚ) : ℕ → Option ℚ :=
  let box := boxExpand
    (segs.foldl
      (fun (b : Option (Vec3 × Vec3)) s =>
        let b1 := match b with
          | none => some (s.1, s.1)
          | some mm => some (Vec3.vmin mm.1 s.1, Vec3.vmax mm.2 s.1)
        match b1 with
        | none => some (s.2, s.2)
        | some mm => some (Vec3.vmin mm.1 s.2, Vec3.vmax mm.2 s.2))
      none)
    maxDistance
  fun vi =>
    let p := pget ps vi
    if boxContains box p then minSegDist sq p segs none else none

/-- computeSmoothstepWeights: weight 0 at or beyond the radius, else the
cubic Hermite smoothstep of t = 1 - d/radius. -/
def computeSmoothstepWeights (distF : ℕ → Option ℚ) (radius : ℚ) :
    ℕ → ℚ := fun i =>
  match distF i with
  | none => 0
  | some d =>
    if radius ≤ d then 0
    else
      let t := 1 - d / radius
      t * t * (3 - 2 * t)

/-- buildAdjacency: the (insertion-ordered) neighbor list of one vertex
across all faces. -/
def buildAdjacency (idx : List ℕ) : ℕ → List ℕ := fun vi =>
  (triples idx).foldl
    (fun nb f =>
      if f.1 = vi then oinsert (oinsert nb f.2.1) f.2.2
      else if f.2.1 = vi then oinsert (oinsert nb f.1) f.2.2
      else if f.2.2 = vi then oinsert (oinsert nb f.1) f.2.1
      else nb)
    []

/-- One uniform weighted Laplacian step with per-vertex displacement
clamping; vertices with weight 0 (or no neighbors) are not written. -/
def applyLaplacianStep (sq : ℚ → ℚ) (adj : ℕ → List ℕ) (weights : ℕ → ℚ)
    (lambda maxStep : ℚ) (pos : List Vec3) : List Vec3 :=
  (List.range pos.length).map fun vi =>
    let v := pget pos vi
    let w := weights vi
    if w ≤ 0 then v
    else
      let nbrs := adj vi
      if nbrs = [] then v
      else
        let s := nbrs.foldl (fun acc ni => Vec3.add acc (pget pos ni)) Vec3.zero
        let av := Vec3.divScalar s (nbrs.length : ℚ)
        let d := Vec3.smul (w * lambda) (Vec3.sub av v)
        let dispLen := sq (Vec3.dot d d)
        let d' := if maxStep < dispLen then Vec3.smul (maxStep / dispLen) d else d
        Vec3.add v d'

def laplacianIter (sq : ℚ → ℚ) (adj : ℕ → List ℕ) (weights : ℕ → ℚ)
    (lambda maxStep : ℚ) : ℕ → List Vec3 → List Vec3
  | 0, pos => pos
  | n + 1, pos =>
    laplacianIter sq adj weights lambda maxStep n
      (applyLaplacianStep sq adj weights lambda maxStep pos)

/-! ### T-junction-free edge splitting -/

/-- The mutable triple (positions, indices, seam vertices) splitSeamEdges
threads through its passes. -/
structure SplitSt where
  ps : List Vec3
  idx : List ℕ
  sv : List ℕ
  deriving DecidableEq, Repr

/-- The edge loop of one face during midpoint detection.  Processes the
three edges in source order; the vertex-count cap stops the remaining
edges of the face (the JS break). -/
def detectFaceEdges (near : ℕ → Bool) (target : ℚ) (maxVert : ℕ) :
    List (ℕ × ℕ) → List Vec3 × List ((ℕ × ℕ) × ℕ) × List ℕ → (ℚ → ℚ) →
      List Vec3 × List ((ℕ × ℕ) × ℕ) × List ℕ
  | [], st, _ => st
  | (a, b) :: rest, st, sq =>
    if ¬(near a ∨ near b) then detectFaceEdges near target maxVert rest st sq
    else if (aget st.2.1 (okey a b)).isSome then
      detectFaceEdges near target maxVert rest st sq
    else
      let pa := pget st.1 a
      let pb := pget st.1 b
      let len := sq (Vec3.distSq pa pb)
      if len ≤ target then detectFaceEdges near target maxVert rest st sq
      else if maxVert ≤ st.1.length then st
      else
        let midIdx := st.1.length
        let mid : Vec3 := ⟨(pa.x + pb.x) / 2, (pa.y + pb.y) / 2, (pa.z + pb.z) / 2⟩
        let sv' := if a ∈ st.2.2 ∧ b ∈ st.2.2 then st.2.2 ++ [midIdx] else st.2.2
        detectFaceEdges near target maxVert rest
          (st.1 ++ [mid], aset st.2.1 (okey a b) midIdx, sv') sq

/-- Midpoint detection over all faces of one pass. -/
def detectPass (sq : ℚ → ℚ) (near : ℕ → Bool) (target : ℚ) (maxVert : ℕ)
    (faces : List (ℕ × ℕ × ℕ)) (ps : List Vec3) (sv : List ℕ) :
    List Vec3 × List ((ℕ × ℕ) × ℕ) × List ℕ :=
  faces.foldl
    (fun st f =>
      detectFaceEdges near target maxVert
        [(f.1, f.2.1), (f.2.1, f.2.2), (f.2.2, f.1)] st sq)
    (ps, [], sv)

/-- Rebuild one face according to which of its edges got midpoints
(0/1/2/3 splits into 1/2/3/4 triangles, exactly the source's case
analysis). -/
def rebuildFace (mids : List ((ℕ × ℕ) × ℕ)) (f : ℕ × ℕ × ℕ) : List ℕ :=
  let v0 := f.1
  let v1 := f.2.1
  let v2 := f.2.2
  match aget mids (okey v0 v1), aget mids (okey v1 v2), aget mids (okey v2 v0) with
  | none, none, none => [v0, v1, v2]
  | some m01, none, none => [v0, m01, v2, m01, v1, v2]
  | none, some m12, none => [v0, v1, m12, v0, m12, v2]
  | none, none, some m20 => [v0, v1, m20, m20, v1, v2]
  | some m01, some m12, none =>
      [v0, m01, m12, v0, m12, v2, m01, v1, m12]
  | none, some m12, some m20 =>
      [v0, v1, m12, v0, m12, m20, m20, m12, v2]
  | some m01, none, some m20 =>
      [v0, m01, m20, m01, v1, v2, m20, m01, v2]
  | some m01, some m12, some m20 =>
      [v0, m01, m20, m01, v1, m12, m20, m12, v2, m01, m12, m20]

/-- The per-pass near-seam cache: a vertex is near when its
point-to-segment distance to some seam segment is below
splitZone = radius * 1.2 (out-of-range reads are never near). -/
def nearSeamOf (sq : ℚ → ℚ) (segs : List (Vec3 × Vec3)) (radius : ℚ)
    (st : SplitSt) : ℕ → Bool := fun vi =>
  decide (vi < st.ps.length) &&
    segs.any fun s => decide (segDist sq (pget st.ps vi) s < radius * 12 / 10)

/-- The detection phase of one pass, started from the pass-entry state. -/
def splitPassDet (sq : ℚ → ℚ) (segs : List (Vec3 × Vec3))
    (radius target : ℚ) (maxVert : ℕ) (st : SplitSt) :
    List Vec3 × List ((ℕ × ℕ) × ℕ) × List ℕ :=
  detectPass sq (nearSeamOf sq segs radius st) target maxVert
    (triples st.idx) st.ps st.sv

/-- One full splitting pass: detection followed by the atomic face
rebuild. -/
def splitPass (sq : ℚ → ℚ) (segs : List (Vec3 × Vec3))
    (radius target : ℚ) (maxVert : ℕ) (st : SplitSt) : SplitSt :=
  let det := splitPassDet sq segs radius target maxVert st
  ⟨det.1,
   (triples st.idx).foldl (fun acc f => acc ++ rebuildFace det.2.1 f) [],
   det.2.2⟩

/-- The pass loop: stop at the vertex cap or when a pass creates no
midpoints. -/
def splitGo (sq : ℚ → ℚ) (segs : List (Vec3 × Vec3)) (radius target : ℚ)
    (maxVert : ℕ) : ℕ → SplitSt → SplitSt
  | 0, st => st
  | fuel + 1, st =>
    if maxVert ≤ st.ps.length then st
    else if (splitPassDet sq segs radius target maxVert st).2.1 = [] then st
    else
      splitGo sq segs radius target maxVert fuel
        (splitPass sq segs radius target maxVert st)

def splitSeamEdges (sq : ℚ → ℚ) (ps : List Vec3) (idx : List ℕ)
    (sv : List ℕ) (segs : List (Vec3 × Vec3)) (radius target : ℚ)
    (maxPasses : ℕ) : SplitSt :=
  splitGo sq segs radius target (ps.length * 5) maxPasses ⟨ps, idx, sv⟩

/-! ### Post-smoothing cleanup and boundary-hole closing -/

/-- Step 8b: remove repeated-index faces, duplicate faces (canonical
sorted-triple key), and near-zero-area faces. -/
def cleanup8b (pos : List Vec3) (idx : List ℕ) : List ℕ :=
  let r := (triples idx).foldl
    (fun (st : List ℕ × List (ℕ × ℕ × ℕ)) f =>
      let a := f.1
      let b := f.2.1
      let c := f.2.2
      if a = b ∨ b = c ∨ a = c then st
      else
        let s0 := min a (min b c)
        let s2 := max a (max b c)
        let s1 := a + b + c - s0 - s2
        if (s0, s1, s2) ∈ st.2 then st
        else
          let n := Vec3.cross (Vec3.sub (pget pos b) (pget pos a))
            (Vec3.sub (pget pos c) (pget pos a))
          if Vec3.dot n n ≤ 1 / 10000000000 then st
          else (st.1 ++ [a, b, c], st.2 ++ [(s0, s1, s2)]))
    ([], [])
  r.1

/-- Undirected face counts plus the directed traversal stored by the
first face that registers each edge. -/
def edgeDataOf (idx : List ℕ) :
    List ((ℕ × ℕ) × ℕ) × List ((ℕ × ℕ) × (ℕ × ℕ)) :=
  (triples idx).foldl
    (fun st f =>
      let step := fun (st : List ((ℕ × ℕ) × ℕ) × List ((ℕ × ℕ) × (ℕ × ℕ)))
          (a b : ℕ) =>
        let key := okey a b
        let cnt := (aget st.1 key).getD 0 + 1
        let efc := aset st.1 key cnt
        if cnt = 1 then (efc, aset st.2 key (a, b)) else (efc, st.2)
      step (step (step st f.1 f.2.1) f.2.1 f.2.2) f.2.2 f.1)
    ([], [])

/-- Boundary-edge keys (count exactly 1, in map order) and the boundary
vertex adjacency built in the same loop. -/
def boundaryData (efc : List ((ℕ × ℕ) × ℕ)) :
    List (ℕ × ℕ) × List (ℕ × List ℕ) :=
  efc.foldl
    (fun (st : List (ℕ × ℕ) × List (ℕ × List ℕ)) e =>
      if e.2 = 1 then
        let a := e.1.1
        let b := e.1.2
        let adj1 := aset st.2 a ((aget st.2 a).getD [] ++ [b])
        let adj2 := aset adj1 b ((aget adj1 b).getD [] ++ [a])
        (st.1 ++ [e.1], adj2)
      else st)
    ([], [])

/-- Junction choice: the unvisited neighbor continuing most smoothly
(largest normalized dot with the incoming direction). -/
def pickNextByAngle (sq : ℚ → ℚ) (pos : List Vec3) (prev current : ℕ)
    (candidates : List ℕ) : ℕ :=
  let inc := Vec3.sub (pget pos current) (pget pos prev)
  let r := candidates.foldl
    (fun (st : ℕ × Option ℚ) n =>
      let o := Vec3.sub (pget pos n) (pget pos current)
      let iLen := sq (Vec3.dot inc inc)
      let oLen := sq (Vec3.dot o o)
      if iLen < 1 / 1000000000000 ∨ oLen < 1 / 1000000000000 then st
      else
        let d := Vec3.dot inc o / (iLen * oLen)
        match st.2 with
        | none => (n, some d)
        | some bd => if bd < d then (n, some d) else st)
    (candidates.headD 0, none)
  r.1

/-- Result of tracing one boundary loop. -/
structure TraceRes where
  loop : List ℕ
  visited : List (ℕ × ℕ)
  closed : Bool
  current : ℕ
  deriving Repr

/-- The edge-level loop-tracing walk, with the 1000-step safety fuel of
the source. -/
def traceGo (sq : ℚ → ℚ) (pos : List Vec3) (adj : List (ℕ × List ℕ))
    (startA : ℕ) :
    ℕ → List ℕ → List (ℕ × ℕ) → ℕ → ℕ → TraceRes
  | 0, loop, visited, _, current => ⟨loop, visited, false, current⟩
  | fuel + 1, loop, visited, prev, current =>
    if current = startA then ⟨loop, visited, true, current⟩
    else
      let loop' := loop ++ [current]
      if 200 < loop'.length then ⟨loop', visited, false, current⟩
      else
        let neighbors := (aget adj current).getD []
        let candidates := neighbors.filter fun n =>
          decide (okey current n ∉ visited)
        match candidates with
        | [] => ⟨loop', visited, false, current⟩
        | [n] =>
          traceGo sq pos adj startA fuel loop'
            (oinsert visited (okey current n)) current n
        | _ =>
          let next := pickNextByAngle sq pos prev current candidates
          traceGo sq pos adj startA fuel loop'
            (oinsert visited (okey current next)) current next

/-- Collect the accepted loops over all boundary edges (spatial closure
within scale*3e-3 counts as closed). -/
def traceLoops (sq : ℚ → ℚ) (pos : List Vec3) (keys : List (ℕ × ℕ))
    (adj : List (ℕ × List ℕ)) (scale : ℚ) :
    List (List ℕ) :=
  (keys.foldl
    (fun (st : List (ℕ × ℕ) × List (List ℕ)) k =>
      if k ∈ st.1 then st
      else
        let res := traceGo sq pos adj k.1 1000 [k.1] (oinsert st.1 k) k.1 k.2
        let nearTolSq := (scale * 3 / 1000) * (scale * 3 / 1000)
        let closed := res.closed ||
          (decide (3 ≤ res.loop.length) &&
            decide (Vec3.distSq (pget pos res.current) (pget pos k.1) < nearTolSq))
        if closed && decide (3 ≤ res.loop.length) && decide (res.loop.length ≤ 200)
        then (res.visited, st.2 ++ [res.loop])
        else (res.visited, st.2))
    ([], [])).2

/-- Winding for a fill face over boundary edge (a,b): opposite to the
stored directed traversal of the existing face. -/
def getWindingFromEdge (a b third : ℕ)
    (ed : List ((ℕ × ℕ) × (ℕ × ℕ))) : ℕ × ℕ × ℕ :=
  match aget ed (okey a b) with
  | some dir => if dir.1 = a ∧ dir.2 = b then (b, a, third) else (a, b, third)
  | none => (a, b, third)

/-- Raw (unnormalized) face normal, as the validation code computes it. -/
def faceNormalRaw (pos : List Vec3) (a b c : ℕ) : Vec3 :=
  Vec3.cross (Vec3.sub (pget pos b) (pget pos a))
    (Vec3.sub (pget pos c) (pget pos a))

/-- Scan the original faces for one sharing the given edge and return
its normalized normal (skipping near-zero normals). -/
def findAdjGo (sq : ℚ → ℚ) (pos : List Vec3) (ekey : ℕ × ℕ) :
    List (ℕ × ℕ × ℕ) → Option Vec3
  | [] => none
  | f :: rest =>
    if okey f.1 f.2.1 = ekey ∨ okey f.2.1 f.2.2 = ekey ∨ okey f.2.2 f.1 = ekey
    then
      let n := faceNormalRaw pos f.1 f.2.1 f.2.2
      let len := sq (Vec3.dot n n)
      if len < 1 / 1000000000000 then findAdjGo sq pos ekey rest
      else some (Vec3.divScalar n len)
    else findAdjGo sq pos ekey rest

def findAdjacentFaceNormal (sq : ℚ → ℚ) (pos : List Vec3)
    (origFaces : List (ℕ × ℕ × ℕ)) (fa fb fc : ℕ) : Option Vec3 :=
  match findAdjGo sq pos (okey fa fb) origFaces with
  | some n => some n
  | none =>
    match findAdjGo sq pos (okey fb fc) origFaces with
    | some n => some n
    | none => findAdjGo sq pos (okey fc fa) origFaces

/-- Fill one loop: a triangle directly, a larger loop by a centroid fan
(the centroid is appended to the extra-vertex block). -/
def fillLoop (pos : List Vec3) (ed : List ((ℕ × ℕ) × (ℕ × ℕ)))
    (st : List Vec3 × List (ℕ × ℕ × ℕ)) (loop : List ℕ) :
    List Vec3 × List (ℕ × ℕ × ℕ) :=
  match loop with
  | [a, b, c] => (st.1, st.2 ++ [getWindingFromEdge a b c ed])
  | _ =>
    let lookup := fun vi =>
      if vi < pos.length then pget pos vi else pget st.1 (vi - pos.length)
    let s := loop.foldl (fun acc vi => Vec3.add acc (lookup vi)) Vec3.zero
    let centroid := Vec3.divScalar s (loop.length : ℚ)
    let centroidIdx := pos.length + st.1.length
    let fan := (List.range loop.length).map fun i2 =>
      getWindingFromEdge (loop.getD i2 0) (loop.getD ((i2 + 1) % loop.length) 0)
        centroidIdx ed
    (st.1 ++ [centroid], st.2 ++ fan)

/-- Flip a fill face when its raw normal disagrees with an adjacent
original face's normal. -/
def flipFill (sq : ℚ → ℚ) (finalPos : List Vec3)
    (origFaces : List (ℕ × ℕ × ℕ)) (f : ℕ × ℕ × ℕ) : ℕ × ℕ × ℕ :=
  let n := faceNormalRaw finalPos f.1 f.2.1 f.2.2
  match findAdjacentFaceNormal sq finalPos origFaces f.1 f.2.1 f.2.2 with
  | none => f
  | some an => if Vec3.dot n an < 0 then (f.1, f.2.2, f.2.1) else f

/-- closeBoundaryHoles: trace the boundary loops of the current index
buffer and append fill faces (and centroid vertices), validating each
fill face's winding against an adjacent original face. -/
def closeBoundaryHoles (sq : ℚ → ℚ) (pos : List Vec3) (idx : List ℕ)
    (scale : ℚ) : List Vec3 × List ℕ :=
  let ed := edgeDataOf idx
  let bd := boundaryData ed.1
  if bd.1 = [] then (pos, idx)
  else
    let loops := traceLoops sq pos bd.1 bd.2 scale
    if loops = [] then (pos, idx)
    else
      let fills := loops.foldl (fillLoop pos ed.2) ([], [])
      let finalPos := pos ++ fills.1
      let flipped := fills.2.map (flipFill sq finalPos (triples idx))
      (finalPos, idx ++ flipped.flatMap fun f => [f.1, f.2.1, f.2.2])

/-- Step 9: expand to a non-indexed triangle soup. -/
def deindex (pos : List Vec3) (idx : List ℕ) : List Vec3 :=
  (triples idx).flatMap fun f => [pget pos f.1, pget pos f.2.1, pget pos f.2.2]

/-- Steps 5 through 9 of the pipeline (adjacency, distance field,
weights, Laplacian smoothing, cleanup, hole closing, de-indexing),
named so the post-split tail can be reasoned about on its own. -/
def smoothTail (sq : ℚ → ℚ) (ps : List Vec3) (idx : List ℕ)
    (segs : List (Vec3 × Vec3)) (opts : SmoothingOptions)
    (scale targetLength : ℚ) : Geo :=
  let adj := buildAdjacency idx
  let distF := computeDistanceField sq ps segs (opts.radius * 13 / 10)
  let weights := computeSmoothstepWeights distF opts.radius
  let numIterations := if 0 < opts.iterations then (opts.iterations : ℤ)
    else max 20 (min 150 ⌊opts.radius * 120⌋)
  let lambda := 2 / 5 + 2 / 5 * opts.strength
  let maxStep := targetLength * 2 / 5
  let pos := laplacianIter sq adj weights lambda maxStep numIterations.toNat ps
  let idx8b := cleanup8b pos idx
  let r := closeBoundaryHoles sq pos idx8b scale
  ⟨deindex r.1 r.2, none⟩

/-- smoothSeam: the complete pipeline.  Early returns hand back the
input geometry unchanged (the source clones it and recomputes normals,
which are unmodelled). -/
def smoothSeam (sq : ℚ → ℚ) (res tool : Geo) (opts : SmoothingOptions) :
    Geo :=
  if opts.strength ≤ 0 then res
  else
    let scale := meshScaleOf res.positions
    let mergeTolerance := max (1 / 10000) (scale * 2 / 10000)
    let m := mergeVertices res mergeTolerance
    let weldTolerance := max (5 / 10000) (scale * 3 / 1000)
    let idx1 := weldLoop m.1 weldTolerance 3 m.2
    let seamVerts := findSeamVertices sq m.1 idx1 tool
    if seamVerts = [] then res
    else
      let segs0 := collectSeamEdgeSegments m.1 idx1 seamVerts
      let seamSegments := if segs0 = [] then
          seamVerts.map fun vi => (pget m.1 vi, pget m.1 vi)
        else segs0
      let minSplitRadius := scale * 15 / 100
      let st2 : SplitSt :=
        if opts.radius < minSplitRadius then
          let bridgeTarget := max (scale / 100) (5 / 1000)
          let s := splitSeamEdges sq m.1 idx1 seamVerts seamSegments
            minSplitRadius bridgeTarget 2
          let w := weldBoundaryVertices s.ps s.idx weldTolerance
          ⟨s.ps, removeDegenerateFaces w.1, s.sv⟩
        else ⟨m.1, idx1, seamVerts⟩
      let targetLength := max (opts.radius / 12) (3 / 1000)
      let st4 := splitSeamEdges sq st2.ps st2.idx st2.sv seamSegments
        opts.radius targetLength 8
      let idx4b := weldLoop st4.ps weldTolerance 3 st4.idx
      smoothTail sq st4.ps idx4b seamSegments opts scale targetLength

/-! ## Claim C8: zero-strength short circuit -/

/-- C8: for every pair of input geometries and every options value with
strength ≤ 0, smoothSeam short-circuits and returns a mesh whose vertex
positions (and hence vertex count) are identical to the input result
mesh's; the pipeline never runs, so neither input's position data is
touched (the embedding's functions are pure and the early return hands
the input back unchanged; only normals, which are unmodelled, are
recomputed on the clone). -/
theorem c8_zero_strength_short_circuit (sq : ℚ → ℚ) (res tool : Geo)
    (opts : SmoothingOptions) (h : opts.strength ≤ 0) :
    (smoothSeam sq res tool opts).positions = res.positions ∧
    (smoothSeam sq res tool opts).positions.length = res.positions.length := by
  unfold smoothSeam
  rw [if_pos h]
  exact ⟨rfl, rfl⟩

theorem c8_witness :
    ((0 : ℚ) ≤ 0) ∧
    (smoothSeam sqA ⟨[⟨0,0,0⟩, ⟨1,0,0⟩, ⟨0,1,0⟩], none⟩ ⟨[⟨5,5,5⟩], none⟩
        ⟨0, 5, 1⟩).positions = [⟨0,0,0⟩, ⟨1,0,0⟩, ⟨0,1,0⟩] :=
  ⟨le_refl 0,
    (c8_zero_strength_short_circuit sqA ⟨[⟨0,0,0⟩, ⟨1,0,0⟩, ⟨0,1,0⟩], none⟩
      ⟨[⟨5,5,5⟩], none⟩ ⟨0, 5, 1⟩ (le_refl 0)).1⟩

/-! ## Claim C9: splitting is bounded, terminating, and targeted -/

theorem detectFaceEdges_len_le (near : ℕ → Bool) (target : ℚ) (maxVert : ℕ) :
    ∀ (es : List (ℕ × ℕ)) (st : List Vec3 × List ((ℕ × ℕ) × ℕ) × List ℕ)
      (sq : ℚ → ℚ), st.1.length ≤ maxVert →
      (detectFaceEdges near target maxVert es st sq).1.length ≤ maxVert
  | [], _, _, h => h
  | (a, b) :: rest, st, sq, h => by
    simp only [detectFaceEdges]
    split_ifs with h1 h2 h3 h4 h5 <;>
      first
        | exact h
        | exact detectFaceEdges_len_le near target maxVert rest st sq h
        | (refine detectFaceEdges_len_le near target maxVert rest _ sq ?_
           simp only [List.length_append, List.length_cons, List.length_nil]
           omega)

theorem detectPass_len_le (sq : ℚ → ℚ) (near : ℕ → Bool) (target : ℚ)
    (maxVert : ℕ) (faces : List (ℕ × ℕ × ℕ)) (ps : List Vec3) (sv : List ℕ)
    (h : ps.length ≤ maxVert) :
    (detectPass sq near target maxVert faces ps sv).1.length ≤ maxVert := by
  unfold detectPass
  suffices H : ∀ (st : List Vec3 × List ((ℕ × ℕ) × ℕ) × List ℕ),
      st.1.length ≤ maxVert →
      (faces.foldl (fun st f => detectFaceEdges near target maxVert
        [(f.1, f.2.1), (f.2.1, f.2.2), (f.2.2, f.1)] st sq) st).1.length ≤ maxVert
    from H (ps, [], sv) h
  intro st
  induction faces generalizing st with
  | nil => exact fun hst => hst
  | cons f rest ih =>
    intro hst
    simp only [List.foldl_cons]
    exact ih _ (detectFaceEdges_len_le near target maxVert _ st sq hst)

theorem splitGo_len_le (sq : ℚ → ℚ) (segs : List (Vec3 × Vec3))
    (radius target : ℚ) (maxVert : ℕ) :
    ∀ (fuel : ℕ) (st : SplitSt), st.ps.length ≤ maxVert →
      (splitGo sq segs radius target maxVert fuel st).ps.length ≤ maxVert
  | 0, _, h => h
  | fuel + 1, st, h => by
    simp only [splitGo]
    split_ifs with h1 h2
    · exact h
    · exact h
    · exact splitGo_len_le sq segs radius target maxVert fuel _
        (detectPass_len_le sq _ target maxVert _ st.ps st.sv h)

theorem splitGo_iter (sq : ℚ → ℚ) (segs : List (Vec3 × Vec3))
    (radius target : ℚ) (maxVert : ℕ) :
    ∀ (fuel : ℕ) (st : SplitSt), ∃ k, k ≤ fuel ∧
      splitGo sq segs radius target maxVert fuel st =
        (splitPass sq segs radius target maxVert)^[k] st
  | 0, _ => ⟨0, le_refl 0, rfl⟩
  | fuel + 1, st => by
    by_cases h1 : maxVert ≤ st.ps.length
    · exact ⟨0, Nat.zero_le _, by simp [splitGo, h1]⟩
    · by_cases h2 : (splitPassDet sq segs radius target maxVert st).2.1 = []
      · exact ⟨0, Nat.zero_le _, by simp [splitGo, h1, h2]⟩
      · obtain ⟨k, hk, he⟩ := splitGo_iter sq segs radius target maxVert fuel
          (splitPass sq segs radius target maxVert st)
        refine ⟨k + 1, Nat.succ_le_succ hk, ?_⟩
        simp only [splitGo, if_neg h1, if_neg h2]
        rw [he, Function.iterate_succ_apply]

theorem splitGo_nomid (sq : ℚ → ℚ) (segs : List (Vec3 × Vec3))
    (radius target : ℚ) (maxVert : ℕ) (st : SplitSt)
    (h : (splitPassDet sq segs radius target maxVert st).2.1 = []) :
    ∀ fuel, splitGo sq segs radius target maxVert fuel st = st
  | 0 => rfl
  | fuel + 1 => by
    by_cases h1 : maxVert ≤ st.ps.length
    · simp [splitGo, h1]
    · simp [splitGo, h1, h]

/-- Reading inside a prefix is reading the prefix. -/
theorem pget_extend {ps0 l : List Vec3} (hp : ps0 <+: l) {i : ℕ}
    (hi : i < ps0.length) : pget l i = pget ps0 i := by
  obtain ⟨t, rfl⟩ := hp
  unfold pget
  exact List.getD_append ps0 t Vec3.zero i hi

theorem mem_aset {κ ν : Type} [DecidableEq κ] {m : List (κ × ν)} {k : κ}
    {v : ν} {x : κ × ν} (hx : x ∈ aset m k v) : x = (k, v) ∨ x ∈ m := by
  induction m with
  | nil => simpa [aset] using hx
  | cons e rest ih =>
    obtain ⟨k', v'⟩ := e
    by_cases hk : k' = k
    · rw [aset, if_pos hk] at hx
      rcases List.mem_cons.mp hx with h | h
      · exact Or.inl h
      · exact Or.inr (List.mem_cons_of_mem _ h)
    · rw [aset, if_neg hk] at hx
      rcases List.mem_cons.mp hx with h | h
      · exact Or.inr (h ▸ List.mem_cons_self _ _)
      · rcases ih h with h' | h'
        · exact Or.inl h'
        · exact Or.inr (List.mem_cons_of_mem _ h')

theorem detectFaceEdges_extend (near : ℕ → Bool) (target : ℚ) (maxVert : ℕ) :
    ∀ (es : List (ℕ × ℕ)) (st : List Vec3 × List ((ℕ × ℕ) × ℕ) × List ℕ)
      (sq : ℚ → ℚ), st.1 <+: (detectFaceEdges near target maxVert es st sq).1
  | [], st, sq => List.prefix_refl _
  | (a, b) :: rest, st, sq => by
    simp only [detectFaceEdges]
    split_ifs with h1 h2 h3 h4 h5 <;>
      first
        | exact List.prefix_refl _
        | exact detectFaceEdges_extend near target maxVert rest st sq
        | (refine List.IsPrefix.trans ?_
             (detectFaceEdges_extend near target maxVert rest _ sq)
           exact List.prefix_append st.1 _)

/-- Midpoint provenance within one face's edge loop: every midpoint not
already present was created for an edge of the loop whose near-seam
check passed and whose length exceeded the target. -/
theorem detectFaceEdges_provenance (near : ℕ → Bool) (target : ℚ)
    (maxVert : ℕ) (ps0 : List Vec3) :
    ∀ (es : List (ℕ × ℕ)) (st : List Vec3 × List ((ℕ × ℕ) × ℕ) × List ℕ)
      (sq : ℚ → ℚ), ps0 <+: st.1 →
      (∀ ab ∈ es, ab.1 < ps0.length ∧ ab.2 < ps0.length) →
      ∀ e ∈ (detectFaceEdges near target maxVert es st sq).2.1,
        e ∈ st.2.1 ∨
          ∃ a b, (a, b) ∈ es ∧ e.1 = okey a b ∧
            (near a = true ∨ near b = true) ∧
            target < sq (Vec3.distSq (pget ps0 a) (pget ps0 b))
  | [], st, sq, _, _, e, he => Or.inl he
  | (a, b) :: rest, st, sq, hpre, hbd, e, he => by
    have hbdr : ∀ ab ∈ rest, ab.1 < ps0.length ∧ ab.2 < ps0.length :=
      fun ab hab => hbd ab (List.mem_cons_of_mem _ hab)
    have weaken :
        e ∈ st.2.1 ∨
          (∃ a' b', (a', b') ∈ rest ∧ e.1 = okey a' b' ∧
            (near a' = true ∨ near b' = true) ∧
            target < sq (Vec3.distSq (pget ps0 a') (pget ps0 b'))) →
        e ∈ st.2.1 ∨
          ∃ a' b', (a', b') ∈ (a, b) :: rest ∧ e.1 = okey a' b' ∧
            (near a' = true ∨ near b' = true) ∧
            target < sq (Vec3.distSq (pget ps0 a') (pget ps0 b')) := by
      rintro (h | ⟨a', b', hm, hrest⟩)
      · exact Or.inl h
      · exact Or.inr ⟨a', b', List.mem_cons_of_mem _ hm, hrest⟩
    simp only [detectFaceEdges] at he
    by_cases h1 : near a = true ∨ near b = true
    · rw [if_neg (not_not_intro h1)] at he
      by_cases h2 : (aget st.2.1 (okey a b)).isSome = true
      · rw [if_pos h2] at he
        exact weaken (detectFaceEdges_provenance near target maxVert ps0
          rest st sq hpre hbdr e he)
      · rw [if_neg h2] at he
        by_cases h3 : sq (Vec3.distSq (pget st.1 a) (pget st.1 b)) ≤ target
        · rw [if_pos h3] at he
          exact weaken (detectFaceEdges_provenance near target maxVert ps0
            rest st sq hpre hbdr e he)
        · rw [if_neg h3] at he
          by_cases h4 : maxVert ≤ st.1.length
          · rw [if_pos h4] at he
            exact Or.inl he
          · rw [if_neg h4] at he
            rcases detectFaceEdges_provenance near target maxVert ps0 rest _ sq
                (hpre.trans (List.prefix_append st.1 _)) hbdr e he with h | h
            · rcases mem_aset h with h' | h'
              · refine Or.inr ⟨a, b, List.mem_cons_self _ _, by rw [h'],
                  h1, ?_⟩
                rw [pget_extend hpre (hbd (a, b) (List.mem_cons_self _ _)).1,
                  pget_extend hpre (hbd (a, b) (List.mem_cons_self _ _)).2] at h3
                exact lt_of_not_le h3
              · exact Or.inl h'
            · exact weaken (Or.inr h)
    · rw [if_pos h1] at he
      exact weaken (detectFaceEdges_provenance near target maxVert ps0
        rest st sq hpre hbdr e he)

/-- The three directed edges of every face, in loop order. -/
def faceEdgesOf (faces : List (ℕ × ℕ × ℕ)) : List (ℕ × ℕ) :=
  faces.flatMap fun f => [(f.1, f.2.1), (f.2.1, f.2.2), (f.2.2, f.1)]

theorem triples_mem : ∀ (l : List ℕ) (f : ℕ × ℕ × ℕ), f ∈ triples l →
    f.1 ∈ l ∧ f.2.1 ∈ l ∧ f.2.2 ∈ l
  | [], f, hf => by simp [triples] at hf
  | [a], f, hf => by simp [triples] at hf
  | [a, b], f, hf => by simp [triples] at hf
  | a :: b :: c :: rest, f, hf => by
    simp only [triples, List.mem_cons] at hf
    rcases hf with rfl | hf
    · simp
    · have := triples_mem rest f hf
      simp only [List.mem_cons]
      exact ⟨Or.inr (Or.inr (Or.inr this.1)),
        Or.inr (Or.inr (Or.inr this.2.1)), Or.inr (Or.inr (Or.inr this.2.2))⟩

/-- Midpoint provenance of a whole detection pass. -/
theorem detectPass_provenance (sq : ℚ → ℚ) (near : ℕ → Bool) (target : ℚ)
    (maxVert : ℕ) (ps0 : List Vec3) (E : List (ℕ × ℕ))
    (hE : ∀ ab ∈ E, ab.1 < ps0.length ∧ ab.2 < ps0.length) :
    ∀ (faces : List (ℕ × ℕ × ℕ))
      (st : List Vec3 × List ((ℕ × ℕ) × ℕ) × List ℕ),
      ps0 <+: st.1 →
      (∀ ab ∈ faceEdgesOf faces, ab ∈ E) →
      (∀ e ∈ st.2.1,
        ∃ a b, (a, b) ∈ E ∧ e.1 = okey a b ∧
          (near a = true ∨ near b = true) ∧
          target < sq (Vec3.distSq (pget ps0 a) (pget ps0 b))) →
      ∀ e ∈ (faces.foldl (fun st f => detectFaceEdges near target maxVert
          [(f.1, f.2.1), (f.2.1, f.2.2), (f.2.2, f.1)] st sq) st).2.1,
        ∃ a b, (a, b) ∈ E ∧ e.1 = okey a b ∧
          (near a = true ∨ near b = true) ∧
          target < sq (Vec3.distSq (pget ps0 a) (pget ps0 b))
  | [], st, _, _, hinv, e, he => hinv e he
  | f :: rest, st, hpre, hsub, hinv, e, he => by
    have hf3 : ∀ ab ∈ [(f.1, f.2.1), (f.2.1, f.2.2), (f.2.2, f.1)], ab ∈ E := by
      intro ab hab
      refine hsub ab ?_
      simp only [faceEdgesOf, List.flatMap_cons, List.mem_append]
      exact Or.inl hab
    have hbd3 : ∀ ab ∈ [(f.1, f.2.1), (f.2.1, f.2.2), (f.2.2, f.1)],
        ab.1 < ps0.length ∧ ab.2 < ps0.length :=
      fun ab hab => hE ab (hf3 ab hab)
    simp only [List.foldl_cons] at he
    refine detectPass_provenance sq near target maxVert ps0 E hE rest _
      (hpre.trans (detectFaceEdges_extend near target maxVert _ st sq))
      (fun ab hab => hsub ab (by
        simp only [faceEdgesOf, List.flatMap_cons, List.mem_append]
        exact Or.inr hab)) ?_ e he
    intro e' he'
    rcases detectFaceEdges_provenance near target maxVert ps0 _ st sq
        hpre hbd3 e' he' with h | ⟨a, b, hm, hk, hn, hl⟩
    · exact hinv e' h
    · exact ⟨a, b, hf3 (a, b) hm, hk, hn, hl⟩

/-- C9: fillet-zone edge splitting is bounded and terminates: the vertex
count never exceeds five times the count at entry; the routine performs
at most maxPasses passes (its result is an iterate of the single-pass
function of order at most maxPasses); it stops as soon as a pass creates
no midpoints; and every midpoint a pass creates belongs to a face edge
with at least one endpoint within 1.2 * radius of some seam segment
whose length exceeds the target length. -/
theorem c9_split_bounded (sq : ℚ → ℚ) (ps : List Vec3) (idx : List ℕ)
    (sv : List ℕ) (segs : List (Vec3 × Vec3)) (radius target : ℚ)
    (maxPasses : ℕ) :
    (splitSeamEdges sq ps idx sv segs radius target maxPasses).ps.length
        ≤ ps.length * 5 ∧
    (∃ k, k ≤ maxPasses ∧
      splitSeamEdges sq ps idx sv segs radius target maxPasses
        = (splitPass sq segs radius target (ps.length * 5))^[k] ⟨ps, idx, sv⟩) ∧
    (∀ (st : SplitSt) (fuel : ℕ),
      (splitPassDet sq segs radius target (ps.length * 5) st).2.1 = [] →
      splitGo sq segs radius target (ps.length * 5) fuel st = st) ∧
    (∀ st : SplitSt, (∀ i ∈ st.idx, i < st.ps.length) →
      ∀ e ∈ (splitPassDet sq segs radius target (ps.length * 5) st).2.1,
        ∃ a b, (a, b) ∈ faceEdgesOf (triples st.idx) ∧ e.1 = okey a b ∧
          (nearSeamOf sq segs radius st a = true ∨
            nearSeamOf sq segs radius st b = true) ∧
          target < sq (Vec3.distSq (pget st.ps a) (pget st.ps b))) := by
  refine ⟨?_, ?_, ?_, ?_⟩
  · exact splitGo_len_le sq segs radius target (ps.length * 5) maxPasses
      ⟨ps, idx, sv⟩ (by show ps.length ≤ ps.length * 5; omega)
  · exact splitGo_iter sq segs radius target (ps.length * 5) maxPasses
      ⟨ps, idx, sv⟩
  · intro st fuel h
    exact splitGo_nomid sq segs radius target (ps.length * 5) st h fuel
  · intro st hidx e he
    have hE : ∀ ab ∈ faceEdgesOf (triples st.idx),
        ab.1 < st.ps.length ∧ ab.2 < st.ps.length := by
      intro ab hab
      simp only [faceEdgesOf, List.mem_flatMap] at hab
      obtain ⟨f, hf, habf⟩ := hab
      have h3 := triples_mem st.idx f hf
      simp only [List.mem_cons, List.not_mem_nil, or_false] at habf
      rcases habf with rfl | rfl | rfl
      · exact ⟨hidx _ h3.1, hidx _ h3.2.1⟩
      · exact ⟨hidx _ h3.2.1, hidx _ h3.2.2⟩
      · exact ⟨hidx _ h3.2.2, hidx _ h3.1⟩
    exact detectPass_provenance sq (nearSeamOf sq segs radius st) target
      (ps.length * 5) st.ps (faceEdgesOf (triples st.idx)) hE
      (triples st.idx) (st.ps, [], st.sv) (List.prefix_refl _)
      (fun ab hab => hab) (fun e' he' => absurd he' (List.not_mem_nil e'))
      e he

def c9ps : List Vec3 := [⟨0,0,0⟩, ⟨3,0,0⟩, ⟨0,3,0⟩]

def c9segs : List (Vec3 × Vec3) := [(⟨0,0,0⟩, ⟨0,0,0⟩)]

theorem c9_witness :
    ((splitSeamEdges sqA c9ps [0,1,2] [] c9segs 1 1 8).ps.length
        ≤ c9ps.length * 5) ∧
    (∃ k, k ≤ 8 ∧ splitSeamEdges sqA c9ps [0,1,2] [] c9segs 1 1 8
        = (splitPass sqA c9segs 1 1 (c9ps.length * 5))^[k] ⟨c9ps, [0,1,2], []⟩) ∧
    (splitGo sqA c9segs 1 1 (c9ps.length * 5) 8 ⟨c9ps, [], []⟩
        = ⟨c9ps, [], []⟩) ∧
    (∃ a b, (a, b) ∈ faceEdgesOf (triples ([0, 1, 2] : List ℕ)) ∧
      ((0, 1) : ℕ × ℕ) = okey a b ∧
      (nearSeamOf sqA c9segs 1 ⟨c9ps, [0,1,2], []⟩ a = true ∨
        nearSeamOf sqA c9segs 1 ⟨c9ps, [0,1,2], []⟩ b = true) ∧
      (1 : ℚ) < sqA (Vec3.distSq (pget c9ps a) (pget c9ps b))) := by
  obtain ⟨t1, t2, t3, t4⟩ := c9_split_bounded sqA c9ps [0,1,2] [] c9segs 1 1 8
  exact ⟨t1, t2, t3 ⟨c9ps, [], []⟩ 8 rfl,
    t4 ⟨c9ps, [0,1,2], []⟩ (by decide) ((0, 1), 3) (by decide)⟩

/-! ## Claims C5 and C6: face cleanup machinery -/

/-- Canonical winding-independent face key (the sorted index triple the
source encodes as the string s0_s1_s2). -/
def skey (f : ℕ × ℕ × ℕ) : ℕ × ℕ × ℕ :=
  (min f.1 (min f.2.1 f.2.2),
   f.1 + f.2.1 + f.2.2 - min f.1 (min f.2.1 f.2.2) - max f.1 (max f.2.1 f.2.2),
   max f.1 (max f.2.1 f.2.2))

theorem triples_append : ∀ (l l' : List ℕ), l.length % 3 = 0 →
    triples (l ++ l') = triples l ++ triples l'
  | [], _, _ => rfl
  | [a], _, h => by simp at h
  | [a, b], _, h => by simp at h
  | a :: b :: c :: rest, l', h => by
    have hr : rest.length % 3 = 0 := by
      simp only [List.length_cons] at h
      omega
    simp [triples, triples_append rest l' hr]

/-- Invariant for the two degenerate/duplicate-face removal folds: the
accumulated index list is whole faces, all with pairwise-distinct
corners, whose canonical keys are exactly the (duplicate-free) key
accumulator. -/
def CleanInv (st : List ℕ × List (ℕ × ℕ × ℕ)) : Prop :=
  st.1.length % 3 = 0 ∧
  (triples st.1).map skey = st.2 ∧
  st.2.Nodup ∧
  ∀ f ∈ triples st.1, f.1 ≠ f.2.1 ∧ f.2.1 ≠ f.2.2 ∧ f.1 ≠ f.2.2

theorem cleanFold_inv
    (step : List ℕ × List (ℕ × ℕ × ℕ) → ℕ × ℕ × ℕ → List ℕ × List (ℕ × ℕ × ℕ))
    (hstep : ∀ st f, step st f = st ∨
      (f.1 ≠ f.2.1 ∧ f.2.1 ≠ f.2.2 ∧ f.1 ≠ f.2.2 ∧ skey f ∉ st.2 ∧
        step st f = (st.1 ++ [f.1, f.2.1, f.2.2], st.2 ++ [skey f]))) :
    ∀ (faces : List (ℕ × ℕ × ℕ)) (st : List ℕ × List (ℕ × ℕ × ℕ)),
      CleanInv st → CleanInv (faces.foldl step st)
  | [], _, h => h
  | f :: rest, st, h => by
    simp only [List.foldl_cons]
    refine cleanFold_inv step hstep rest (step st f) ?_
    rcases hstep st f with heq | ⟨hd1, hd2, hd3, hnk, heq⟩
    · rw [heq]; exact h
    · rw [heq]
      obtain ⟨hlen, hmap, hnd, hall⟩ := h
      have htr : triples (st.1 ++ [f.1, f.2.1, f.2.2])
          = triples st.1 ++ [(f.1, f.2.1, f.2.2)] :=
        triples_append st.1 _ hlen
      refine ⟨?_, ?_, ?_, ?_⟩
      · simp only [List.length_append, List.length_cons, List.length_nil]
        omega
      · rw [htr, List.map_append, hmap]
        rfl
      · rw [List.nodup_append]
        exact ⟨hnd, List.nodup_singleton _,
          fun x hx hm => hnk ((List.mem_singleton.mp hm) ▸ hx)⟩
      · intro g hg
        rw [htr] at hg
        rcases List.mem_append.mp hg with hg | hg
        · exact hall g hg
        · rw [List.mem_singleton.mp hg]
          exact ⟨hd1, hd2, hd3⟩


/-- removeDegenerateFaces output: every face has three distinct corners
and no two faces share a canonical key (vertex set). -/
theorem removeDegenerateFaces_clean (idx : List ℕ) :
    (∀ f ∈ triples (removeDegenerateFaces idx),
      f.1 ≠ f.2.1 ∧ f.2.1 ≠ f.2.2 ∧ f.1 ≠ f.2.2) ∧
    (triples (removeDegenerateFaces idx)).Pairwise
      (fun f g => skey f ≠ skey g) := by
  have H : CleanInv ((triples idx).foldl
      (fun (st : List ℕ × List (ℕ × ℕ × ℕ)) f =>
        let a := f.1
        let b := f.2.1
        let c := f.2.2
        if a = b ∨ b = c ∨ a = c then st
        else
          let s0 := min a (min b c)
          let s2 := max a (max b c)
          let s1 := a + b + c - s0 - s2
          if (s0, s1, s2) ∈ st.2 then st
          else (st.1 ++ [a, b, c], st.2 ++ [(s0, s1, s2)])) ([], [])) := by
    refine cleanFold_inv _ ?_ (triples idx) ([], [])
      ⟨by decide, rfl, List.nodup_nil, fun f hf => absurd hf (List.not_mem_nil f)⟩
    intro st f
    dsimp only
    by_cases h1 : f.1 = f.2.1 ∨ f.2.1 = f.2.2 ∨ f.1 = f.2.2
    · left
      simp only [if_pos h1]
    · rw [if_neg h1]
      push_neg at h1
      by_cases h2 : skey f ∈ st.2
      · left
        simp only [skey] at h2
        simp only [if_pos h2]
      · right
        refine ⟨h1.1, h1.2.1, h1.2.2, h2, ?_⟩
        simp only [skey] at h2 ⊢
        simp only [if_neg h2]
  obtain ⟨_, hmap, hnd, hall⟩ := H
  rw [← hmap] at hnd
  exact ⟨hall, List.pairwise_map.mp hnd⟩

/-- C6: clean faces before hole closing: in the index buffer step 8b
hands to closeBoundaryHoles, no face has a repeated vertex index, and no
two faces consist of the same set of three vertices under any winding
(their canonical sorted keys are pairwise distinct).  (The hole-closing
step can append fill faces that re-use an existing face's vertex set;
see the counterexample.) -/
theorem c6_pre_closing_faces_clean (pos : List Vec3) (idx : List ℕ) :
    (∀ f ∈ triples (cleanup8b pos idx),
      f.1 ≠ f.2.1 ∧ f.2.1 ≠ f.2.2 ∧ f.1 ≠ f.2.2) ∧
    (triples (cleanup8b pos idx)).Pairwise (fun f g => skey f ≠ skey g) := by
  have H : CleanInv ((triples idx).foldl
      (fun (st : List ℕ × List (ℕ × ℕ × ℕ)) f =>
        let a := f.1
        let b := f.2.1
        let c := f.2.2
        if a = b ∨ b = c ∨ a = c then st
        else
          let s0 := min a (min b c)
          let s2 := max a (max b c)
          let s1 := a + b + c - s0 - s2
          if (s0, s1, s2) ∈ st.2 then st
          else
            let n := Vec3.cross (Vec3.sub (pget pos b) (pget pos a))
              (Vec3.sub (pget pos c) (pget pos a))
            if Vec3.dot n n ≤ 1 / 10000000000 then st
            else (st.1 ++ [a, b, c], st.2 ++ [(s0, s1, s2)])) ([], [])) := by
    refine cleanFold_inv _ ?_ (triples idx) ([], [])
      ⟨by decide, rfl, List.nodup_nil, fun f hf => absurd hf (List.not_mem_nil f)⟩
    intro st f
    dsimp only
    by_cases h1 : f.1 = f.2.1 ∨ f.2.1 = f.2.2 ∨ f.1 = f.2.2
    · left
      simp only [if_pos h1]
    · rw [if_neg h1]
      push_neg at h1
      by_cases h2 : skey f ∈ st.2
      · left
        simp only [skey] at h2
        simp only [if_pos h2]
      · by_cases h3 : Vec3.dot
            (Vec3.cross (Vec3.sub (pget pos f.2.1) (pget pos f.1))
              (Vec3.sub (pget pos f.2.2) (pget pos f.1)))
            (Vec3.cross (Vec3.sub (pget pos f.2.1) (pget pos f.1))
              (Vec3.sub (pget pos f.2.2) (pget pos f.1))) ≤ 1 / 10000000000
        · left
          simp only [skey] at h2
          simp only [if_neg h2, if_pos h3]
        · right
          refine ⟨h1.1, h1.2.1, h1.2.2, h2, ?_⟩
          simp only [skey] at h2 ⊢
          simp only [if_neg h2, if_neg h3]
  obtain ⟨_, hmap, hnd, hall⟩ := H
  rw [← hmap] at hnd
  exact ⟨hall, List.pairwise_map.mp hnd⟩

/-- A parent map in its pristine state: every node is absent or its own
parent (no union has happened yet). -/
def IdPar (p : List (ℕ × ℕ)) : Prop :=
  ∀ x, aget p x = none ∨ aget p x = some x

theorem idpar_nil : IdPar [] := fun _ => Or.inl rfl

theorem aget_cons {κ ν : Type} [DecidableEq κ] (k1 : κ) (v1 : ν)
    (rest : List (κ × ν)) (k' : κ) :
    aget ((k1, v1) :: rest) k' = if k1 = k' then some v1 else aget rest k' := by
  simp only [aget, List.find?]
  by_cases h : k1 = k'
  · simp [h]
  · simp [h]

theorem aget_aset {κ ν : Type} [DecidableEq κ] (m : List (κ × ν)) (k k' : κ)
    (v : ν) : aget (aset m k v) k' = if k' = k then some v else aget m k' := by
  induction m with
  | nil =>
    rw [show aset ([] : List (κ × ν)) k v = [(k, v)] from rfl, aget_cons]
    by_cases h : k = k'
    · rw [if_pos h, if_pos h.symm]
    · rw [if_neg h, if_neg (fun h' => h h'.symm)]
  | cons e rest ih =>
    obtain ⟨k1, v1⟩ := e
    by_cases h1 : k1 = k
    · rw [aset, if_pos h1, aget_cons, aget_cons]
      subst h1
      by_cases h : k1 = k'
      · rw [if_pos h, if_pos h.symm]
      · rw [if_neg h, if_neg (fun h' => h h'.symm), if_neg h]
    · rw [aset, if_neg h1, aget_cons, aget_cons, ih]
      by_cases h2 : k1 = k'
      · have h3 : ¬(k' = k) := fun h => h1 (h2.trans h)
        rw [if_pos h2, if_neg h3, if_pos h2]
      · rw [if_neg h2, if_neg h2]

theorem ufFindGo_id {p : List (ℕ × ℕ)} (hp : IdPar p) (fuel : ℕ) (x : ℕ) :
    (ufFindGo (fuel + 1) p x).1 = x ∧ IdPar (ufFindGo (fuel + 1) p x).2 := by
  rcases hp x with h | h
  · have he : ufFindGo (fuel + 1) p x = (x, aset p x x) := by
      simp [ufFindGo, h]
    rw [he]
    refine ⟨rfl, fun y => ?_⟩
    rw [show aget (aset p x x) y = if y = x then some x else aget p y
      from aget_aset p x y x]
    by_cases hy : y = x
    · rw [if_pos hy, hy]
      exact Or.inr rfl
    · rw [if_neg hy]
      exact hp y
  · have he : ufFindGo (fuel + 1) p x = (x, p) := by
      simp [ufFindGo, h]
    rw [he]
    exact ⟨rfl, hp⟩

theorem ufFind_id {p : List (ℕ × ℕ)} (hp : IdPar p) (x : ℕ) :
    (ufFind p x).1 = x ∧ IdPar (ufFind p x).2 := by
  have h : p.length + 2 = (p.length + 1) + 1 := rfl
  unfold ufFind
  rw [h]
  exact ufFindGo_id hp (p.length + 1) x

theorem weldInner_cnt_mono (ps : List Vec3) (tolSq : ℚ) (vi : ℕ) :
    ∀ (rest : List ℕ) (p : List (ℕ × ℕ)) (cnt : ℕ),
      cnt ≤ (weldInner ps tolSq vi rest p cnt).2
  | [], _, cnt => le_refl cnt
  | vj :: rest, p, cnt => by
    simp only [weldInner]
    split_ifs with h1 h2
    · exact weldInner_cnt_mono ps tolSq vi rest _ cnt
    · exact le_trans (Nat.le_succ cnt) (weldInner_cnt_mono ps tolSq vi rest _ (cnt + 1))
    · exact weldInner_cnt_mono ps tolSq vi rest _ cnt

theorem weldOuter_cnt_mono (ps : List Vec3) (tolSq : ℚ) :
    ∀ (L : List ℕ) (p : List (ℕ × ℕ)) (cnt : ℕ),
      cnt ≤ (weldOuter ps tolSq L p cnt).2
  | [], _, cnt => le_refl cnt
  | vi :: rest, p, cnt => by
    simp only [weldOuter]
    exact le_trans (weldInner_cnt_mono ps tolSq vi rest p cnt)
      (weldOuter_cnt_mono ps tolSq rest _ _)

theorem weldInner_dichotomy (ps : List Vec3) (tolSq : ℚ) (vi : ℕ) :
    ∀ (rest : List ℕ) (p : List (ℕ × ℕ)) (cnt : ℕ), IdPar p →
      (IdPar (weldInner ps tolSq vi rest p cnt).1 ∧
        (weldInner ps tolSq vi rest p cnt).2 = cnt) ∨
      1 ≤ (weldInner ps tolSq vi rest p cnt).2
  | [], _, _, hp => Or.inl ⟨hp, rfl⟩
  | vj :: rest, p, cnt, hp => by
    have hf1 := ufFind_id hp vi
    have hf2 := ufFind_id hf1.2 vj
    simp only [weldInner]
    split_ifs with h1 h2
    · exact weldInner_dichotomy ps tolSq vi rest _ cnt hf2.2
    · exact Or.inr (le_trans (Nat.le_add_left 1 cnt)
        (weldInner_cnt_mono ps tolSq vi rest _ (cnt + 1)))
    · exact weldInner_dichotomy ps tolSq vi rest _ cnt hf2.2

theorem weldInner_reach (ps : List Vec3) (tolSq : ℚ) (vi b : ℕ) (hv : vi ≠ b)
    (hclose : Vec3.distSq (pget ps vi) (pget ps b) < tolSq) :
    ∀ (rest : List ℕ) (p : List (ℕ × ℕ)) (cnt : ℕ), IdPar p → b ∈ rest →
      1 ≤ (weldInner ps tolSq vi rest p cnt).2
  | [], _, _, _, hb => absurd hb (List.not_mem_nil b)
  | vj :: rest, p, cnt, hp, hb => by
    have hf1 := ufFind_id hp vi
    have hf2 := ufFind_id hf1.2 vj
    simp only [weldInner]
    by_cases hroot : (ufFind p vi).1 = (ufFind (ufFind p vi).2 vj).1
    · rw [if_pos hroot]
      rcases List.mem_cons.mp hb with rfl | hb'
      · rw [hf1.1, hf2.1] at hroot
        exact absurd hroot hv
      · exact weldInner_reach ps tolSq vi b hv hclose rest _ cnt hf2.2 hb'
    · rw [if_neg hroot]
      by_cases hdist :
          ((pget ps vi).x - (pget ps vj).x) * ((pget ps vi).x - (pget ps vj).x) +
            ((pget ps vi).y - (pget ps vj).y) * ((pget ps vi).y - (pget ps vj).y) +
            ((pget ps vi).z - (pget ps vj).z) * ((pget ps vi).z - (pget ps vj).z)
            < tolSq
      · rw [if_pos hdist]
        exact le_trans (Nat.le_add_left 1 cnt)
          (weldInner_cnt_mono ps tolSq vi rest _ (cnt + 1))
      · rw [if_neg hdist]
        rcases List.mem_cons.mp hb with rfl | hb'
        · exact absurd (by simpa only [Vec3.distSq, pow_two] using hclose) hdist
        · exact weldInner_reach ps tolSq vi b hv hclose rest _ cnt hf2.2 hb'

theorem weldOuter_reach (ps : List Vec3) (tolSq : ℚ) (a b : ℕ) (hab : a ≠ b)
    (hclose : Vec3.distSq (pget ps a) (pget ps b) < tolSq) :
    ∀ (L : List ℕ) (p : List (ℕ × ℕ)) (cnt : ℕ), IdPar p → a ∈ L → b ∈ L →
      1 ≤ (weldOuter ps tolSq L p cnt).2
  | [], _, _, _, ha, _ => absurd ha (List.not_mem_nil a)
  | vi :: rest, p, cnt, hp, ha, hb => by
    simp only [weldOuter]
    rcases List.mem_cons.mp ha with rfl | ha'
    · have hbr : b ∈ rest := by
        rcases List.mem_cons.mp hb with h | h
        · exact absurd h (Ne.symm hab)
        · exact h
      exact le_trans (weldInner_reach ps tolSq a b hab hclose rest p cnt hp hbr)
        (weldOuter_cnt_mono ps tolSq rest _ _)
    · rcases List.mem_cons.mp hb with rfl | hb'
      · have hclose' : Vec3.distSq (pget ps b) (pget ps a) < tolSq := by
          have he : Vec3.distSq (pget ps b) (pget ps a)
              = Vec3.distSq (pget ps a) (pget ps b) := by
            simp only [Vec3.distSq]
            ring
          rw [he]
          exact hclose
        exact le_trans
          (weldInner_reach ps tolSq b a (Ne.symm hab) hclose' rest p cnt hp ha')
          (weldOuter_cnt_mono ps tolSq rest _ _)
      · rcases weldInner_dichotomy ps tolSq vi rest p cnt hp with ⟨hip, _⟩ | hge
        · exact weldOuter_reach ps tolSq a b hab hclose rest _ _ hip ha' hb'
        · exact le_trans hge (weldOuter_cnt_mono ps tolSq rest _ _)

/-- C5 (amended): a boundary-weld pass never touches the position
buffer (the vertex count is unchanged; only face indices are
rewritten).  When the mesh has two distinct boundary vertices within the
weld tolerance, the pass reports that a merge happened (so the caller
proceeds); faces can become degenerate in the rewrite, and the
degenerate-face removal that immediately follows in every call site
leaves no face with a repeated index and no two faces with the same
vertex set. -/
theorem c5_boundary_weld (ps : List Vec3) (idx : List ℕ) (tol : ℚ)
    (a b : ℕ) (hab : a ≠ b)
    (ha : a ∈ boundaryVertsOf (edgeFaceCounts idx))
    (hb : b ∈ boundaryVertsOf (edgeFaceCounts idx))
    (hclose : Vec3.distSq (pget ps a) (pget ps b) < tol * tol) :
    (weldBoundaryVertices ps idx tol).2 = true ∧
    (∀ f ∈ triples (removeDegenerateFaces (weldBoundaryVertices ps idx tol).1),
      f.1 ≠ f.2.1 ∧ f.2.1 ≠ f.2.2 ∧ f.1 ≠ f.2.2) ∧
    (triples (removeDegenerateFaces
        (weldBoundaryVertices ps idx tol).1)).Pairwise
      (fun f g => skey f ≠ skey g) := by
  refine ⟨?_, (removeDegenerateFaces_clean _).1, (removeDegenerateFaces_clean _).2⟩
  have hbv : ¬(boundaryVertsOf (edgeFaceCounts idx) = []) := by
    intro h
    rw [h] at ha
    exact absurd ha (List.not_mem_nil a)
  have hcnt : 1 ≤ (weldOuter ps (tol * tol)
      (boundaryVertsOf (edgeFaceCounts idx)) [] 0).2 :=
    weldOuter_reach ps (tol * tol) a b hab hclose _ [] 0 idpar_nil ha hb
  simp only [weldBoundaryVertices]
  rw [if_neg hbv,
    if_neg (by omega : ¬(weldOuter ps (tol * tol)
      (boundaryVertsOf (edgeFaceCounts idx)) [] 0).2 = 0)]

def c5ps : List Vec3 := [⟨0, 0, 0⟩, ⟨1/100000, 0, 0⟩, ⟨0, 1, 0⟩]

/-- C5 counterexample: a single triangle whose vertices 0 and 1 are
distinct boundary vertices within the weld tolerance.  One boundary-weld
pass reports a merge but leaves the vertex count at 3 (its output
carries no shrunken position buffer; the positions are untouched), and
the rewritten face [0, 0, 2] is degenerate: it has acquired a repeated
vertex index. -/
theorem c5_counterexample :
    (0 : ℕ) ≠ 1 ∧
    0 ∈ boundaryVertsOf (edgeFaceCounts [0, 1, 2]) ∧
    1 ∈ boundaryVertsOf (edgeFaceCounts [0, 1, 2]) ∧
    Vec3.distSq (pget c5ps 0) (pget c5ps 1) < (1/1000) * (1/1000) ∧
    weldBoundaryVertices c5ps [0, 1, 2] (1/1000) = ([0, 0, 2], true) ∧
    c5ps.length = 3 := by
  decide

def c5wps : List Vec3 :=
  [⟨0, 0, 0⟩, ⟨1, 0, 0⟩, ⟨0, 1, 0⟩, ⟨0, 1/100000, 0⟩, ⟨5, 0, 0⟩, ⟨0, 5, 0⟩]

theorem c5_witness :
    ((0 : ℕ) ≠ 3 ∧
      0 ∈ boundaryVertsOf (edgeFaceCounts [0, 1, 2, 3, 4, 5]) ∧
      3 ∈ boundaryVertsOf (edgeFaceCounts [0, 1, 2, 3, 4, 5]) ∧
      Vec3.distSq (pget c5wps 0) (pget c5wps 3) < (1/100) * (1/100)) ∧
    ((weldBoundaryVertices c5wps [0, 1, 2, 3, 4, 5] (1/100)).2 = true ∧
      (∀ f ∈ triples (removeDegenerateFaces
          (weldBoundaryVertices c5wps [0, 1, 2, 3, 4, 5] (1/100)).1),
        f.1 ≠ f.2.1 ∧ f.2.1 ≠ f.2.2 ∧ f.1 ≠ f.2.2) ∧
      (triples (removeDegenerateFaces
          (weldBoundaryVertices c5wps [0, 1, 2, 3, 4, 5] (1/100)).1)).Pairwise
        (fun f g => skey f ≠ skey g)) :=
  ⟨⟨by decide, by decide, by decide, by decide⟩,
    c5_boundary_weld c5wps [0, 1, 2, 3, 4, 5] (1/100) 0 3
      (by decide) (by decide) (by decide) (by decide)⟩

/-! ## Claim C4: locality of smoothing -/

theorem pget_map_range {n : ℕ} {f : ℕ → Vec3} {vi : ℕ} (h : vi < n) :
    pget ((List.range n).map f) vi = f vi := by
  unfold pget
  rw [List.getD_eq_getElem _ _ (by simpa using h)]
  simp

theorem applyLaplacianStep_fixed (sq : ℚ → ℚ) (adj : ℕ → List ℕ)
    (weights : ℕ → ℚ) (lambda maxStep : ℚ) (pos : List Vec3) (vi : ℕ)
    (hw : weights vi = 0) (hvi : vi < pos.length) :
    pget (applyLaplacianStep sq adj weights lambda maxStep pos) vi
      = pget pos vi := by
  unfold applyLaplacianStep
  rw [pget_map_range hvi]
  simp [hw]

theorem laplacianIter_fixed (sq : ℚ → ℚ) (adj : ℕ → List ℕ)
    (weights : ℕ → ℚ) (lambda maxStep : ℚ) :
    ∀ (n : ℕ) (pos : List Vec3) (vi : ℕ), weights vi = 0 → vi < pos.length →
      (laplacianIter sq adj weights lambda maxStep n pos).length = pos.length ∧
      pget (laplacianIter sq adj weights lambda maxStep n pos) vi = pget pos vi
  | 0, _, _, _, _ => ⟨rfl, rfl⟩
  | n + 1, pos, vi, hw, hvi => by
    simp only [laplacianIter]
    have hlen : (applyLaplacianStep sq adj weights lambda maxStep pos).length
        = pos.length := by
      simp [applyLaplacianStep]
    have ih := laplacianIter_fixed sq adj weights lambda maxStep n
      (applyLaplacianStep sq adj weights lambda maxStep pos) vi hw
      (by rw [hlen]; exact hvi)
    exact ⟨ih.1.trans hlen, ih.2.trans
      (applyLaplacianStep_fixed sq adj weights lambda maxStep pos vi hw hvi)⟩

/-- C4 (amended, stage-scoped): the falloff weight is exactly 0 for
every vertex whose stored distance-field entry is Infinity (modelled as
none) or at least the radius, and every Laplacian smoothing iteration
leaves every weight-0 vertex's position (and the vertex count)
unchanged.  The end-to-end form of the claim is false: a far vertex's
position can disappear from the output mesh because boundary welding
rewrites face indices and the de-indexing step emits only referenced
vertices (see the counterexample). -/
theorem c4_weight_locality :
    (∀ (distF : ℕ → Option ℚ) (radius : ℚ) (i : ℕ),
      (distF i = none ∨ ∃ d, distF i = some d ∧ radius ≤ d) →
      computeSmoothstepWeights distF radius i = 0) ∧
    (∀ (sq : ℚ → ℚ) (adj : ℕ → List ℕ) (weights : ℕ → ℚ)
      (lambda maxStep : ℚ) (n : ℕ) (pos : List Vec3) (vi : ℕ),
      weights vi = 0 → vi < pos.length →
      (laplacianIter sq adj weights lambda maxStep n pos).length = pos.length ∧
      pget (laplacianIter sq adj weights lambda maxStep n pos) vi
        = pget pos vi) := by
  constructor
  · intro distF radius i h
    rcases h with h | ⟨d, hd, hr⟩
    · simp [computeSmoothstepWeights, h]
    · simp [computeSmoothstepWeights, hd, if_pos hr]
  · intro sq adj weights lambda maxStep n pos vi hw hvi
    exact laplacianIter_fixed sq adj weights lambda maxStep n pos vi hw hvi

theorem c4_witness :
    computeSmoothstepWeights (fun _ => some 5) 1 0 = 0 ∧
    (laplacianIter sqA (fun _ => [0]) (fun _ => 0) 1 1 3
      [⟨1, 2, 3⟩]).length = [(⟨1, 2, 3⟩ : Vec3)].length ∧
    pget (laplacianIter sqA (fun _ => [0]) (fun _ => 0) 1 1 3 [⟨1, 2, 3⟩]) 0
      = pget [⟨1, 2, 3⟩] 0 := by
  obtain ⟨t1, t2⟩ := c4_weight_locality
  have h2 := t2 sqA (fun _ => [0]) (fun _ => 0) 1 1 3 [⟨1, 2, 3⟩] 0 rfl
    (by decide)
  exact ⟨t1 (fun _ => some 5) 1 0 (Or.inr ⟨5, rfl, by decide⟩), h2.1, h2.2⟩

/-! ## Concrete pipeline run shared by the C4 and C6 counterexamples -/

/-- Three isolated triangles: a seam triangle at the origin and two far
triangles, one vertex of which ((100.1, 1, 0), index 8) lies within the
boundary-weld tolerance of (100, 1, 0) (index 5) but beyond the merge
tolerance. -/
def c46res : Geo :=
  ⟨[⟨0, 0, 0⟩, ⟨1, 0, 0⟩, ⟨0, 1, 0⟩,
    ⟨100, 0, 0⟩, ⟨101, 0, 0⟩, ⟨100, 1, 0⟩,
    ⟨100, 5, 0⟩, ⟨101, 5, 0⟩, ⟨1001/10, 1, 0⟩], none⟩

/-- The tool geometry: the seam triangle itself. -/
def c46tool : Geo := ⟨[⟨0, 0, 0⟩, ⟨1, 0, 0⟩, ⟨0, 1, 0⟩], none⟩

def c46opts : SmoothingOptions := ⟨1, 1, 24⟩

/-- The pipeline's intermediate values for this run, recomputed exactly
as smoothSeam computes them. -/
def c46scale : ℚ := meshScaleOf c46res.positions

def c46m : List Vec3 × List ℕ :=
  mergeVertices c46res (max (1/10000) (c46scale * 2/10000))

def c46idx1 : List ℕ :=
  weldLoop c46m.1 (max (5/10000) (c46scale * 3/1000)) 3 c46m.2

def c46seam : List ℕ := findSeamVertices sqA c46m.1 c46idx1 c46tool

def c46segs : List (Vec3 × Vec3) :=
  collectSeamEdgeSegments c46m.1 c46idx1 c46seam

/-- Vertex-position multiset of face i of a non-indexed triangle soup. -/
def soupFaceSet (ps : List Vec3) (i : ℕ) : Multiset Vec3 :=
  {pget ps (3 * i), pget ps (3 * i + 1), pget ps (3 * i + 2)}

/-- C4 counterexample: in this run, vertex 8 of the pipeline's working
mesh is the input vertex (100.1, 1, 0); its distance to every detected
seam segment (at least 99) is far beyond the radius 24, so its falloff
weight is 0 — yet its position does not appear in the smoothSeam output
at all: boundary welding redirected its face references to vertex 5 and
de-indexing dropped the now-unreferenced vertex. -/
theorem c4_counterexample :
    (0 : ℚ) < c46opts.strength ∧
    pget c46m.1 8 = ⟨1001/10, 1, 0⟩ ∧
    (⟨1001/10, 1, 0⟩ : Vec3) ∈ c46res.positions ∧
    c46segs ≠ [] ∧
    (∀ s ∈ c46segs, c46opts.radius ≤ segDist sqA (pget c46m.1 8) s) ∧
    (⟨1001/10, 1, 0⟩ : Vec3) ∉ (smoothSeam sqA c46res c46tool c46opts).positions := by
  decide

/-- C6 counterexample: the same run produces a non-indexed output whose
face 3 — the fill face closeBoundaryHoles created for the seam
triangle's 3-edge boundary loop — consists of exactly the same three
vertex positions as face 0, the seam triangle itself: the final face
list does contain two faces with one vertex set. -/
theorem c6_counterexample :
    (0 : ℚ) < c46opts.strength ∧
    (smoothSeam sqA c46res c46tool c46opts).index = none ∧
    3 < (smoothSeam sqA c46res c46tool c46opts).positions.length / 3 ∧
    soupFaceSet (smoothSeam sqA c46res c46tool c46opts).positions 0 =
      soupFaceSet (smoothSeam sqA c46res c46tool c46opts).positions 3 := by
  decide
